import Mathlib

/-!
# Octomap: the generic octree engine `AbstractOcTree<NODE>`

A shallow embedding of `src/octomap/AbstractOcTree.h` and
`src/octomap/AbstractOcTree.hxx`.

Conventions of the embedding.

* `double` and `float` values are exact rationals (`ℚ`): every arithmetic
  operation of the source is taken exactly, `floor` is `Int.floor` and
  `pow(2., n)` is `2 ^ n`.
* Where the rounding of a `double` operation decides a discrete result, the
  operation is a parameter of the definition (`genKeyWith`,
  `setResolutionWith`); `genKey` and `setResolution` are the instances with
  exact arithmetic, and `doubleMul`, `doubleDiv` are the instances of the
  machine, rounded to the nearest `double`.
* `unsigned int` and `unsigned short` values are natural numbers, `int` values
  are integers; a conversion or an unsigned operation that can leave the range
  of its type is written with an explicit reduction modulo `2 ^ 32` or
  `2 ^ 16`.
* A `NODE*` is a value of `NodePtr`: either `null` or a node with its payload
  and its eight child pointers.  A node is identified by the path that leads
  to it from the root.
* A by-reference output parameter becomes part of the returned value; a call
  through a null pointer and a failed `assert` make the result `none`.
-/

namespace octomap

/-! ## Types used by the engine -/

/-- Modelled from the spec: the type `point3d` of `octomap_types.h`, which is
not part of the sources at hand. The spec speaks of a point with three real
coordinates, read by `p(0)`, `p(1)` and `p(2)`. -/
structure point3d where
  x : ℚ
  y : ℚ
  z : ℚ
deriving DecidableEq

/-- Modelled from the spec: component access `p(i)` of a `point3d`. -/
def point3d.get (p : point3d) (i : Nat) : ℚ :=
  match i with
  | 0 => p.x
  | 1 => p.y
  | _ => p.z

/-- Modelled from the spec: component-wise difference `p - q` of two points. -/
def point3d.sub (p q : point3d) : point3d :=
  ⟨p.x - q.x, p.y - q.y, p.z - q.z⟩

/-- The type `OcTreeVolume` of the source: a `std::pair<point3d, double>` holding the centre and
the edge length of a cube. -/
abbrev OcTreeVolume := point3d × ℚ

/-- A value of type `NODE*`: the null pointer, or a node with its payload and
the array of its eight child pointers. -/
inductive NodePtr (α : Type) where
  | null : NodePtr α
  | node (data : α) (itsChildren : Fin 8 → NodePtr α) : NodePtr α

namespace NodePtr

variable {α : Type}

/-- Test `p == NULL`. -/
def isNull : NodePtr α → Bool
  | null => true
  | node _ _ => false

/-- Child slot `i` of the node a non-null pointer refers to. -/
def slot : NodePtr α → Nat → NodePtr α
  | null, _ => null
  | node _ ch, i => if h : i < 8 then ch ⟨i, h⟩ else null

/-- Modelled from the spec: `NODE::childExists(i)`, whose body is not part of
the sources at hand: slot `i` of the node is populated. The source calls it
through a pointer it has checked or obtained from a populated slot; the value
at `null` is never used. -/
def childExists (n : NodePtr α) (i : Nat) : Bool :=
  !(n.slot i).isNull

/-- Modelled from the spec: `NODE::getChild(i)`, whose body is not part of
the sources at hand: the pointer held in slot `i`. -/
def getChild (n : NodePtr α) (i : Nat) : NodePtr α :=
  n.slot i

/-- Modelled from the spec: `NODE::hasChildren()`, whose body is not part of
the sources at hand: the node is a branch, some of its eight slots is
populated. -/
def hasChildren (n : NodePtr α) : Bool :=
  (List.range 8).any fun i => n.childExists i

/-- The node reached from `n` through the child indices of `path`, read from
the left; `null` when a slot on the way is empty. -/
def follow : NodePtr α → List Nat → NodePtr α
  | n, [] => n
  | n, i :: path => follow (n.slot i) path

end NodePtr

/-! ## Integer conversions of the source -/

/-- Conversion of an `int` to `unsigned int`. -/
def toUnsigned (z : Int) : Nat := (z % 2 ^ 32).toNat

/-- Conversion of an `unsigned int` to `int`. -/
def toSigned (n : Nat) : Int :=
  if n % 2 ^ 32 < 2 ^ 31 then ((n % 2 ^ 32 : Nat) : Int) else ((n % 2 ^ 32 : Nat) : Int) - 2 ^ 32

/-- Subtraction `a - b` of two `unsigned int` values. -/
def unsignedSub (a b : Nat) : Nat := (a % 2 ^ 32 + 2 ^ 32 - b % 2 ^ 32) % 2 ^ 32

/-- Conversion `(int) floor(x)` of an integral `double` to `int`. A value that
does not fit is outside what C++ defines; the model takes what the conversion
instruction of x86 delivers there, the smallest `int`. -/
def doubleToInt (z : Int) : Int :=
  if -2 ^ 31 ≤ z ∧ z < 2 ^ 31 then z else -2 ^ 31

/-! ## Double arithmetic -/

/-- Rounding of a real number to the nearest `double` (IEEE 754 binary64:
53 significant bits, ties to the even significand). The exponent is not
bounded, so overflow and subnormal numbers are left out. -/
def roundDouble (q : ℚ) : ℚ :=
  if q = 0 then 0
  else
    let e : Int := Int.log 2 |q| - 52
    let m : ℚ := q / 2 ^ e
    let f : Int := ⌊m⌋
    let n : Int :=
      if m - f < 1 / 2 then f
      else if 1 / 2 < m - f then f + 1
      else if f % 2 = 0 then f
      else f + 1
    n * 2 ^ e

/-- The product `a * b` of two `double` values as the machine computes it. -/
def doubleMul (a b : ℚ) : ℚ := roundDouble (a * b)

/-- The quotient `a / b` of two `double` values as the machine computes it. -/
def doubleDiv (a b : ℚ) : ℚ := roundDouble (a / b)

/-! ## The tree -/

/-- The state of an `AbstractOcTree<NODE>` object. -/
structure AbstractOcTree (α : Type) where
  itsRoot : NodePtr α
  tree_depth : Nat
  tree_max_val : Nat
  resolution : ℚ
  resolution_factor : ℚ
  tree_center : point3d
  tree_size : Nat
  maxValue : point3d
  minValue : point3d
  sizeChanged : Bool

namespace AbstractOcTree

variable {α : Type}

/-- `AbstractOcTree::size`. -/
def size (t : AbstractOcTree α) : Nat := t.tree_size

/-- `AbstractOcTree::getResolution`. -/
def getResolution (t : AbstractOcTree α) : ℚ := t.resolution

/-- `AbstractOcTree::getRoot`. -/
def getRoot (t : AbstractOcTree α) : NodePtr α := t.itsRoot

/-- `AbstractOcTree::setResolution`, the division of two `double` values
being the parameter `div`. -/
def setResolutionWith (div : ℚ → ℚ → ℚ) (t : AbstractOcTree α) (r : ℚ) : AbstractOcTree α :=
  let t1 := { t with resolution := r }
  let t2 := { t1 with resolution_factor := div 1 t1.resolution }
  let c : ℚ := div (t2.tree_max_val : ℚ) t2.resolution_factor
  { t2 with tree_center := ⟨c, c, c⟩ }

/-- `AbstractOcTree::setResolution` with exact division. -/
def setResolution (t : AbstractOcTree α) (r : ℚ) : AbstractOcTree α :=
  setResolutionWith (fun a b => a / b) t r

/-- The constructor `AbstractOcTree::AbstractOcTree(double _resolution)`. -/
def new (_resolution : ℚ) : AbstractOcTree α :=
  let t0 : AbstractOcTree α :=
    { itsRoot := NodePtr.null, tree_depth := 16, tree_max_val := 32768,
      resolution := _resolution, resolution_factor := 0, tree_center := ⟨0, 0, 0⟩,
      tree_size := 0, maxValue := ⟨0, 0, 0⟩, minValue := ⟨0, 0, 0⟩, sizeChanged := false }
  let t1 := t0.setResolution _resolution
  { t1 with maxValue := ⟨-1000000, -1000000, -1000000⟩,
            minValue := ⟨1000000, 1000000, 1000000⟩,
            sizeChanged := true }

/-- `AbstractOcTree::genKey`, the product of two `double` values being the
parameter `mul`: `none` is the return value `false` (the key is left
untouched), `some k` is the return value `true` with `key = k`. -/
def genKeyWith (mul : ℚ → ℚ → ℚ) (t : AbstractOcTree α) (val : ℚ) : Option Nat :=
  let scaled_val : Int :=
    toSigned ((toUnsigned (doubleToInt ⌊mul t.resolution_factor val⌋) + t.tree_max_val) % 2 ^ 32)
  if scaled_val > 0 ∧ toUnsigned scaled_val < (2 * t.tree_max_val) % 2 ^ 32 then
    some ((scaled_val % 2 ^ 16).toNat)
  else
    none

/-- `AbstractOcTree::genKey` with the exact product. -/
def genKey (t : AbstractOcTree α) (val : ℚ) : Option Nat :=
  genKeyWith (fun a b => a * b) t val

/-- `AbstractOcTree::genVal`: the returned pair is the return value and the
content of `val` on return. -/
def genVal (t : AbstractOcTree α) (key : Nat) : Bool × ℚ :=
  if key ≥ (2 * t.tree_max_val) % 2 ^ 32 then
    (false, 0)
  else
    (true, (((key : ℚ) - (t.tree_max_val : ℚ)) + 1 / 2) * t.resolution)

/-- `AbstractOcTree::genPos`: `key` is the array of the three axis keys. -/
def genPos (key : Nat × Nat × Nat) (i : Nat) : Nat :=
  let retval := 0
  let retval := if key.1 &&& (1 <<< i) ≠ 0 then retval + 1 else retval
  let retval := if key.2.1 &&& (1 <<< i) ≠ 0 then retval + 2 else retval
  let retval := if key.2.2 &&& (1 <<< i) ≠ 0 then retval + 4 else retval
  retval

/-- The `for` loop of `search` with `n` levels left to visit: the next level
is `i = n - 1`. The result is `none` when the loop calls a member function
through a null `curNode`; otherwise it is the return value together with the
content of `result` on return. -/
def searchLoop (key : Nat × Nat × Nat) : Nat → NodePtr α → Option (Bool × NodePtr α)
  | 0, curNode => some (true, curNode)
  | _ + 1, NodePtr.null => none
  | i + 1, NodePtr.node d ch =>
    let curNode := NodePtr.node d ch
    let pos := genPos key i
    if curNode.childExists pos then
      searchLoop key i (curNode.getChild pos)
    else if !curNode.hasChildren then
      some (true, curNode)
    else
      some (false, NodePtr.null)

/-- `AbstractOcTree::search`: the return value and the content of `result` on
return, or `none` when a member function is called through a null pointer. -/
def search (t : AbstractOcTree α) (value : point3d) : Option (Bool × NodePtr α) :=
  match t.genKey (value.get 0) with
  | none => some (false, NodePtr.null)
  | some k0 =>
    match t.genKey (value.get 1) with
    | none => some (false, NodePtr.null)
    | some k1 =>
      match t.genKey (value.get 2) with
      | none => some (false, NodePtr.null)
      | some k2 =>
        searchLoop (k0, k1, k2) (toSigned (unsignedSub t.tree_depth 1) + 1).toNat t.itsRoot

/-- The value of `search_center` after the three assignments made for child
`i` in the loops of `getLeafNodesRecurs` and `getVoxelsRecurs`. -/
def searchCenter (parent_center : point3d) (center_offset : ℚ) (i : Nat) : point3d :=
  ⟨if i &&& 1 ≠ 0 then parent_center.get 0 + center_offset else parent_center.get 0 - center_offset,
   if i &&& 2 ≠ 0 then parent_center.get 1 + center_offset else parent_center.get 1 - center_offset,
   if i &&& 4 ≠ 0 then parent_center.get 2 + center_offset else parent_center.get 2 - center_offset⟩

/-- `AbstractOcTree::getLeafNodesRecurs`: the list `nodes` after the call.
The recursive call is made only below `max_depth`, so `depth + 1` stays within
`unsigned int` whenever `max_depth` does. -/
def getLeafNodesRecurs (t : AbstractOcTree α) :
    NodePtr α → Nat → Nat → point3d → List OcTreeVolume → List OcTreeVolume
  | NodePtr.null, _, _, _, nodes => nodes
  | NodePtr.node d ch, depth, max_depth, parent_center, nodes =>
    if depth ≤ max_depth then
      if (NodePtr.node d ch).hasChildren ∧ depth ≠ max_depth then
        let center_offset : ℚ := t.tree_center.get 0 / 2 ^ (depth + 1)
        ([0, 1, 2, 3, 4, 5, 6, 7] : List (Fin 8)).foldl
          (fun nodes i =>
            if (NodePtr.node d ch).childExists i.val then
              getLeafNodesRecurs t (ch i) (depth + 1) max_depth
                (searchCenter parent_center center_offset i.val) nodes
            else nodes)
          nodes
      else
        let voxelSize : ℚ := t.resolution * 2 ^ unsignedSub t.tree_depth depth
        nodes ++ [(parent_center.sub t.tree_center, voxelSize)]
    else nodes

/-- `AbstractOcTree::getLeafNodes`: the list `nodes` after the call, or `none`
when `assert(itsRoot)` fails. -/
def getLeafNodes (t : AbstractOcTree α) (max_depth : Nat) (nodes : List OcTreeVolume) :
    Option (List OcTreeVolume) :=
  if t.itsRoot.isNull then none
  else if t.tree_size ≤ 1 then some nodes
  else some (getLeafNodesRecurs t t.itsRoot 0 max_depth t.tree_center nodes)

/-- `AbstractOcTree::getVoxelsRecurs`: the list `voxels` after the call. -/
def getVoxelsRecurs (t : AbstractOcTree α) :
    NodePtr α → Nat → Nat → point3d → List OcTreeVolume → List OcTreeVolume
  | NodePtr.null, _, _, _, voxels => voxels
  | NodePtr.node d ch, depth, max_depth, parent_center, voxels =>
    if depth ≤ max_depth then
      if (NodePtr.node d ch).hasChildren ∧ depth ≠ max_depth then
        let center_offset : ℚ := t.tree_center.get 0 / 2 ^ (depth + 1)
        ([0, 1, 2, 3, 4, 5, 6, 7] : List (Fin 8)).foldl
          (fun voxels i =>
            if (NodePtr.node d ch).childExists i.val then
              getVoxelsRecurs t (ch i) (depth + 1) max_depth
                (searchCenter parent_center center_offset i.val) voxels
            else
              let voxelSize : ℚ := t.resolution * 2 ^ unsignedSub t.tree_depth depth
              voxels ++ [(parent_center.sub t.tree_center, voxelSize)])
          voxels
      else voxels
    else voxels

/-- `AbstractOcTree::getVoxels`: the list `voxels` after the call, or `none`
when `assert(itsRoot)` fails. -/
def getVoxels (t : AbstractOcTree α) (max_depth : Nat) (voxels : List OcTreeVolume) :
    Option (List OcTreeVolume) :=
  if t.itsRoot.isNull then none
  else some (getVoxelsRecurs t t.itsRoot 0 max_depth t.tree_center voxels)

/-- The part of the state that the constructor and `setResolution` establish
and that no operation of the class changes afterwards: the two constants of
the tree and the quantities derived from the resolution. -/
structure Configured (t : AbstractOcTree α) : Prop where
  depth : t.tree_depth = 16
  max_val : t.tree_max_val = 32768
  factor : t.resolution_factor = 1 / t.resolution
  center : t.tree_center =
    ⟨(t.tree_max_val : ℚ) / t.resolution_factor, (t.tree_max_val : ℚ) / t.resolution_factor,
      (t.tree_max_val : ℚ) / t.resolution_factor⟩

/-! ### Paths through the tree -/

/-- The child indices `genPos key (lo + n - 1)`, ..., `genPos key (lo + 1)`,
`genPos key lo`: the path that the levels `lo + n - 1` down to `lo` of the
keys prescribe. -/
def keyPath (key : Nat × Nat × Nat) (lo : Nat) : Nat → List Nat
  | 0 => []
  | n + 1 => genPos key (lo + n) :: keyPath key lo n

/-- Modelled from the spec: the path creation of a point update. The update
routine (`updateNode`, declared in `CountingOcTree.h`) has no body in the
sources at hand. The spec has a child slot allocated on the first write along
its path, and the comment in `search` calls the search the variant of the
insertion that stops where the insertion creates a node: the loop below is
the loop of `search` with a fresh node `fresh` created where the child is
absent. -/
def insertLoop (fresh : α) (key : Nat × Nat × Nat) : Nat → NodePtr α → NodePtr α
  | 0, curNode => curNode
  | _ + 1, NodePtr.null => NodePtr.null
  | i + 1, NodePtr.node d ch =>
    if h : genPos key i < 8 then
      let child :=
        if (NodePtr.node d ch).childExists (genPos key i) then ch ⟨genPos key i, h⟩
        else NodePtr.node fresh fun _ => NodePtr.null
      NodePtr.node d (Function.update ch ⟨genPos key i, h⟩ (insertLoop fresh key i child))
    else NodePtr.node d ch

/-- The node at `path` below `root` exists. -/
def reaches (root : NodePtr α) (path : List Nat) : Prop :=
  (root.follow path).isNull = false

instance (root : NodePtr α) (path : List Nat) : Decidable (reaches root path) :=
  inferInstanceAs (Decidable ((root.follow path).isNull = false))

/-- The nodes the spec has `getLeafNodes` report, as paths from `n` with
`budget` levels left: the reachable nodes that are childless within the
budget or lie exactly at the end of the budget. -/
def reported (n : NodePtr α) (budget : Nat) (path : List Nat) : Prop :=
  reaches n path ∧
    (((n.follow path).hasChildren = false ∧ path.length ≤ budget) ∨ path.length = budget)

instance (n : NodePtr α) (budget : Nat) (path : List Nat) : Decidable (reported n budget path) :=
  inferInstanceAs (Decidable (reaches n path ∧
    (((n.follow path).hasChildren = false ∧ path.length ≤ budget) ∨ path.length = budget)))

/-- Enumeration of the reported nodes below `n`, as paths in depth-first
order with ascending child index. -/
def leafPaths : NodePtr α → Nat → List (List Nat)
  | NodePtr.null, _ => []
  | NodePtr.node d ch, budget =>
    if (NodePtr.node d ch).hasChildren ∧ budget ≠ 0 then
      ([0, 1, 2, 3, 4, 5, 6, 7] : List (Fin 8)).flatMap fun i =>
        (leafPaths (ch i) (budget - 1)).map fun p => i.val :: p
    else [[]]

/-- The centre handed down along `path`, starting with `parent_center` at
`depth`: one step of `searchCenter` per child index, as in the recursive calls
of the extraction routines. -/
def pathCenter (t : AbstractOcTree α) (parent_center : point3d) (depth : Nat) :
    List Nat → point3d
  | [] => parent_center
  | i :: path =>
    pathCenter t (searchCenter parent_center (t.tree_center.get 0 / 2 ^ (depth + 1)) i)
      (depth + 1) path

/-- The volume that `getLeafNodesRecurs` appends for the node at `path` below
a node visited at `depth` with centre `parent_center`. -/
def leafVolume (t : AbstractOcTree α) (parent_center : point3d) (depth : Nat)
    (path : List Nat) : OcTreeVolume :=
  ((pathCenter t parent_center depth path).sub t.tree_center,
    t.resolution * 2 ^ unsignedSub t.tree_depth (depth + path.length))

/-- The sign `s_k` of the claim on the cell centre: `+1` when bit `a` of the
child index `i` is set, `-1` otherwise. -/
def axisSign (a i : Nat) : ℚ :=
  if i / 2 ^ a % 2 = 1 then 1 else -1

/-- The centre coordinate on axis `a` that the spec assigns to the node at
`path`: the sum over the levels `k` of `s_k * (32768 * resolution) / 2^(k+1)`. -/
def specCentre (resolution : ℚ) (a : Nat) (path : List Nat) : ℚ :=
  Finset.sum (Finset.range path.length) fun k =>
    axisSign a (path.getD k 0) * (32768 * resolution) / 2 ^ (k + 1)

/-- Enumeration of the empty child slots that `getVoxelsRecurs` visits below
`n` with `budget` levels left: the pair of the path to a branch node and the
index of one of its empty slots, in depth-first order with ascending child
index. -/
def voxelSlots : NodePtr α → Nat → List (List Nat × Nat)
  | NodePtr.null, _ => []
  | NodePtr.node d ch, budget =>
    if (NodePtr.node d ch).hasChildren ∧ budget ≠ 0 then
      ([0, 1, 2, 3, 4, 5, 6, 7] : List (Fin 8)).flatMap fun i =>
        if (NodePtr.node d ch).childExists i.val then
          (voxelSlots (ch i) (budget - 1)).map fun s => (i.val :: s.1, s.2)
        else [([], i.val)]
    else []

/-- The `depth` argument of every invocation of `getLeafNodesRecurs` that a
call on `n` at `depth` gives rise to, the call itself included, in the order
of the calls. `getVoxelsRecurs` makes its recursive calls under the same
tests, so the list is that of its invocations as well. The nesting depth of
an invocation is its `depth` argument when the outermost call has depth 0. -/
def recursDepths : NodePtr α → Nat → Nat → List Nat
  | NodePtr.null, depth, _ => [depth]
  | NodePtr.node d ch, depth, max_depth =>
    depth ::
      (if depth ≤ max_depth then
        if (NodePtr.node d ch).hasChildren ∧ depth ≠ max_depth then
          ([0, 1, 2, 3, 4, 5, 6, 7] : List (Fin 8)).flatMap fun i =>
            if (NodePtr.node d ch).childExists i.val then
              recursDepths (ch i) (depth + 1) max_depth
            else []
        else []
      else [])

end AbstractOcTree

/-! ### The occupancy node -/

/-- The macro `PROB_HIT` of `OcTreeNode.h`. -/
def PROB_HIT : ℚ := 7 / 10

/-- The macro `PROB_MISS` of `OcTreeNode.h`. -/
def PROB_MISS : ℚ := 4 / 10

/-- The macro `CLAMPING_THRES_MIN` of `OcTreeNode.h`. -/
def CLAMPING_THRES_MIN : ℚ := -2

/-- The macro `CLAMPING_THRES_MAX` of `OcTreeNode.h`. -/
def CLAMPING_THRES_MAX : ℚ := 7 / 2

/-- The data members `log_odds_occupancy` and `data` of the class `OcTreeNode`. -/
structure OcTreeNode where
  log_odds_occupancy : ℚ
  data : Nat

namespace OcTreeNode

/-- Modelled from the spec: `OcTreeNode::logodds`, declared in `OcTreeNode.h`
without a body in the sources at hand. The spec has the update add
`log(p/(1-p))`; the logarithm of the C library is the parameter `ln`. -/
def logodds (ln : ℚ → ℚ) (p : ℚ) : ℚ :=
  ln (p / (1 - p))

/-- Modelled from the spec: `OcTreeNode::updateLogOdds`, declared in
`OcTreeNode.h` without a body in the sources at hand. The spec has
`log_odds += log(p/(1-p))` followed by a clamp to
`[CLAMPING_THRES_MIN, CLAMPING_THRES_MAX]`. -/
def updateLogOdds (ln : ℚ → ℚ) (n : OcTreeNode) (p : ℚ) : OcTreeNode :=
  let l := n.log_odds_occupancy + logodds ln p
  { n with
    log_odds_occupancy :=
      if l < CLAMPING_THRES_MIN then CLAMPING_THRES_MIN
      else if l > CLAMPING_THRES_MAX then CLAMPING_THRES_MAX
      else l }

/-- Modelled from the spec: `OcTreeNode::integrateHit`, declared in
`OcTreeNode.h` without a body: the update with the probability `PROB_HIT`. -/
def integrateHit (ln : ℚ → ℚ) (n : OcTreeNode) : OcTreeNode :=
  updateLogOdds ln n PROB_HIT

/-- Modelled from the spec: `OcTreeNode::integrateMiss`, declared in
`OcTreeNode.h` without a body: the update with the probability `PROB_MISS`. -/
def integrateMiss (ln : ℚ → ℚ) (n : OcTreeNode) : OcTreeNode :=
  updateLogOdds ln n PROB_MISS

/-- A finite sequence of calls on one node: `true` is a call of
`integrateHit`, `false` a call of `integrateMiss`. -/
def integrate (ln : ℚ → ℚ) : OcTreeNode → List Bool → OcTreeNode
  | n, [] => n
  | n, true :: calls => integrate ln (integrateHit ln n) calls
  | n, false :: calls => integrate ln (integrateMiss ln n) calls

end OcTreeNode

namespace AbstractOcTree

variable {α : Type}

/-- Every node of the subtree of `n` lies at a depth of at most `k` below `n`. -/
def withinDepth : NodePtr α → Nat → Bool
  | NodePtr.null, _ => true
  | NodePtr.node d ch, 0 => !(NodePtr.node d ch).hasChildren
  | NodePtr.node _ ch, k + 1 =>
    ([0, 1, 2, 3, 4, 5, 6, 7] : List (Fin 8)).all fun i => withinDepth (ch i) k

/-- A childless node. -/
def leafNode : NodePtr Unit := NodePtr.node () fun _ => NodePtr.null

/-- A node whose only child, in slot `i`, is `c`. -/
def onlyChild (i : Fin 8) (c : NodePtr Unit) : NodePtr Unit :=
  NodePtr.node () fun j => if j = i then c else NodePtr.null

/-- A tree of resolution 1 with the given root and node count. -/
def treeOf (root : NodePtr Unit) (n : Nat) : AbstractOcTree Unit :=
  { (new 1 : AbstractOcTree Unit) with itsRoot := root, tree_size := n }

/-- The root alone. -/
def rootOnlyTree : AbstractOcTree Unit := treeOf leafNode 1

/-- A root with exactly one child, a leaf in slot 3. -/
def oneLeafTree : AbstractOcTree Unit := treeOf (onlyChild 3 leafNode) 2

/-- The root-only tree after the nodes on the path of the keys
`(32768, 32768, 32768)`, the keys of the point `(0, 0, 0)`, have been created. -/
def pathTree : AbstractOcTree Unit :=
  treeOf (insertLoop () (32768, 32768, 32768) 16 leafNode) 17

/-- A chain of `n` nodes below `c`, each the only child, in slot 0, of the one above. -/
def chain : Nat → NodePtr Unit → NodePtr Unit
  | 0, c => c
  | n + 1, c => onlyChild 0 (chain n c)

/-- A tree with a leaf at depth 17: a chain of seventeen slot-0 children below the root. -/
def deepTree : AbstractOcTree Unit := treeOf (chain 17 leafNode) 18

/-- A tree with a branch node at depth 17: a chain of eighteen slot-0 children below the root. -/
def deeperTree : AbstractOcTree Unit := treeOf (chain 18 leafNode) 19

/-- The `double` nearest to 0.1. -/
def tenth : ℚ := 3602879701896397 / 36028797018963968

/-- The `double` nearest to 0.3. -/
def threeTenths : ℚ := 5404319552844595 / 18014398509481984

/-- The `double` nearest to 0.11. -/
def elevenHundredths : ℚ := 7926335344172073 / 72057594037927936

/-- The `double` nearest to -3604.37. -/
def insideLowerEnd : ℚ := -3963046725806981 / 1099511627776

/-- The root-only tree after `setResolution(0.1)` carried out in `double` arithmetic. -/
def tenthTree : AbstractOcTree Unit := setResolutionWith doubleDiv (treeOf leafNode 1) tenth

/-- The root-only tree after `setResolution(0.11)` carried out in `double` arithmetic. -/
def eleventhTree : AbstractOcTree Unit :=
  setResolutionWith doubleDiv (treeOf leafNode 1) elevenHundredths

end AbstractOcTree

/-! ## Key generation -/

namespace AbstractOcTree

variable {α : Type}

theorem configured_setResolution (t : AbstractOcTree α) (r : ℚ)
    (hd : t.tree_depth = 16) (hm : t.tree_max_val = 32768) : Configured (t.setResolution r) :=
  ⟨hd, hm, rfl, rfl⟩

theorem configured_new (r : ℚ) : Configured (new r : AbstractOcTree α) :=
  ⟨rfl, rfl, rfl, rfl⟩

/-- The integer arithmetic of `genKey` carried out on an arbitrary integral
floor value: the key is produced exactly when the shifted value lies strictly
between 0 and 65536. -/
theorem scaled_val_spec (z : Int) :
    let sv := toSigned ((toUnsigned (doubleToInt z) + 32768) % 2 ^ 32)
    (0 < z + 32768 ∧ z + 32768 < 65536 →
        (sv > 0 ∧ toUnsigned sv < (2 * 32768) % 2 ^ 32) ∧ (sv % 2 ^ 16).toNat = (z + 32768).toNat) ∧
      (¬(0 < z + 32768 ∧ z + 32768 < 65536) →
        ¬(sv > 0 ∧ toUnsigned sv < (2 * 32768) % 2 ^ 32)) := by
  simp only [toSigned, toUnsigned, doubleToInt]
  norm_num
  constructor
  · intro h1 h2
    have hz : -2147483648 ≤ z ∧ z < 2147483648 := by omega
    rw [if_pos hz]
    split_ifs <;> omega
  · intro h
    by_cases hz : -2147483648 ≤ z ∧ z < 2147483648
    · rw [if_pos hz]
      split_ifs <;> omega
    · rw [if_neg hz]
      split_ifs <;> omega

theorem genKeyWith_eq (mul : ℚ → ℚ → ℚ) (t : AbstractOcTree α) (hm : t.tree_max_val = 32768)
    (val : ℚ) :
    genKeyWith mul t val =
      if 0 < ⌊mul t.resolution_factor val⌋ + 32768 ∧
          ⌊mul t.resolution_factor val⌋ + 32768 < 65536 then
        some (⌊mul t.resolution_factor val⌋ + 32768).toNat
      else none := by
  have h := scaled_val_spec ⌊mul t.resolution_factor val⌋
  simp only [genKeyWith, hm]
  by_cases hc : 0 < ⌊mul t.resolution_factor val⌋ + 32768 ∧
      ⌊mul t.resolution_factor val⌋ + 32768 < 65536
  · rw [if_pos hc, if_pos (h.1 hc).1, (h.1 hc).2]
  · rw [if_neg hc, if_neg (h.2 hc)]

theorem genKey_eq (t : AbstractOcTree α) (hm : t.tree_max_val = 32768) (val : ℚ) :
    genKey t val =
      if 0 < ⌊t.resolution_factor * val⌋ + 32768 ∧ ⌊t.resolution_factor * val⌋ + 32768 < 65536 then
        some (⌊t.resolution_factor * val⌋ + 32768).toNat
      else none :=
  genKeyWith_eq (fun a b => a * b) t hm val

theorem floor_cell (r v : ℚ) (hr : 0 < r) :
    (⌊v / r⌋ : ℚ) * r ≤ v ∧ v < ((⌊v / r⌋ : ℚ) + 1) * r := by
  constructor
  · have h := Int.floor_le (v / r)
    calc (⌊v / r⌋ : ℚ) * r ≤ v / r * r := mul_le_mul_of_nonneg_right h hr.le
      _ = v := div_mul_cancel₀ v hr.ne.symm
  · have h := Int.lt_floor_add_one (v / r)
    calc v = v / r * r := (div_mul_cancel₀ v hr.ne.symm).symm
      _ < ((⌊v / r⌋ : ℚ) + 1) * r := mul_lt_mul_of_pos_right h hr

theorem genKey_some_iff (t : AbstractOcTree α) (h : Configured t) (v : ℚ) (k : Nat) :
    genKey t v = some k ↔
      (0 < ⌊v / t.resolution⌋ + 32768 ∧ ⌊v / t.resolution⌋ + 32768 < 65536) ∧
        (k : Int) = ⌊v / t.resolution⌋ + 32768 := by
  have hf : t.resolution_factor * v = v / t.resolution := by
    rw [h.factor, one_div, inv_mul_eq_div]
  rw [genKey_eq t h.max_val, hf]
  by_cases hc : 0 < ⌊v / t.resolution⌋ + 32768 ∧ ⌊v / t.resolution⌋ + 32768 < 65536
  · rw [if_pos hc]
    constructor
    · intro hk
      refine ⟨hc, ?_⟩
      have := Option.some.inj hk
      omega
    · rintro ⟨_, hk⟩
      congr 1
      omega
  · rw [if_neg hc]
    constructor
    · intro hk
      cases hk
    · rintro ⟨hc2, _⟩
      exact absurd hc2 hc

theorem genVal_eq (t : AbstractOcTree α) (hm : t.tree_max_val = 32768) (key : Nat) :
    genVal t key =
      if key ≥ 65536 then (false, 0) else (true, ((key : ℚ) - 32768 + 1 / 2) * t.resolution) := by
  simp only [genVal, hm]
  norm_num

/-- C1: for a resolution `r > 0` and a value `v` on which `genKey` succeeds
with key `k`, `genVal` succeeds on `k` with a value `c` such that
`|c - v| ≤ r / 2`; `c` is the centre of the cell
`[floor(v/r) * r, (floor(v/r) + 1) * r)`, and that cell contains `v`. -/
theorem key_round_trip (t : AbstractOcTree α) (h : Configured t) (hr : 0 < t.resolution)
    (v : ℚ) (k : Nat) (hk : genKey t v = some k) :
    ∃ c : ℚ, genVal t k = (true, c) ∧ |c - v| ≤ t.resolution / 2 ∧
      c = ((⌊v / t.resolution⌋ : ℚ) * t.resolution +
            ((⌊v / t.resolution⌋ : ℚ) + 1) * t.resolution) / 2 ∧
      (⌊v / t.resolution⌋ : ℚ) * t.resolution ≤ v ∧
      v < ((⌊v / t.resolution⌋ : ℚ) + 1) * t.resolution := by
  obtain ⟨⟨h0, h1⟩, hkz⟩ := (genKey_some_iff t h v k).1 hk
  obtain ⟨hlo, hhi⟩ := floor_cell t.resolution v hr
  have hkq : (k : ℚ) = (⌊v / t.resolution⌋ : ℚ) + 32768 := by
    have := congrArg (fun z : Int => (z : ℚ)) hkz
    simpa using this
  have hklt : ¬ k ≥ 65536 := by omega
  refine ⟨((k : ℚ) - 32768 + 1 / 2) * t.resolution, ?_, ?_, ?_, hlo, hhi⟩
  · rw [genVal_eq t h.max_val, if_neg hklt]
  · rw [hkq, abs_le]
    constructor <;> nlinarith
  · rw [hkq]
    ring

/-- C3: for a 16-bit key `k` (`0 ≤ k ≤ 65535`, `k = 0` included) and any
resolution `r`, `genVal` returns true with `val = (k - 32768 + 0.5) * r`;
`genVal` returns false exactly for a key `≥ 65536`. -/
theorem genVal_sixteen_bit (t : AbstractOcTree α) (hm : t.tree_max_val = 32768) (k : Nat)
    (hk : k ≤ 65535) :
    genVal t k = (true, ((k : ℚ) - 32768 + 1 / 2) * t.resolution) ∧
      (∀ key : Nat, (genVal t key).1 = false ↔ key ≥ 65536) := by
  constructor
  · rw [genVal_eq t hm, if_neg (by omega)]
  · intro key
    rw [genVal_eq t hm]
    by_cases hc : key ≥ 65536
    · simp [hc]
    · simp [hc]

theorem and_shift_ne_zero (k i : Nat) : k &&& (1 <<< i) ≠ 0 ↔ k / 2 ^ i % 2 = 1 := by
  rw [Nat.one_shiftLeft, Nat.land_comm, Nat.two_pow_and, Nat.testBit_to_div_mod]
  have hp : 0 < 2 ^ i := Nat.pos_pow_of_pos i (by decide)
  by_cases hb : k / 2 ^ i % 2 = 1
  · simp [hb]
  · simp [hb]

theorem genPos_eq (key : Nat × Nat × Nat) (i : Nat) :
    genPos key i = key.1 / 2 ^ i % 2 + 2 * (key.2.1 / 2 ^ i % 2) + 4 * (key.2.2 / 2 ^ i % 2) := by
  simp only [genPos, and_shift_ne_zero]
  have h1 := Nat.mod_two_eq_zero_or_one (key.1 / 2 ^ i)
  have h2 := Nat.mod_two_eq_zero_or_one (key.2.1 / 2 ^ i)
  have h3 := Nat.mod_two_eq_zero_or_one (key.2.2 / 2 ^ i)
  rcases h1 with h1 | h1 <;> rcases h2 with h2 | h2 <;> rcases h3 with h3 | h3 <;>
    simp [h1, h2, h3]

/-- C4: for 16-bit keys `kx`, `ky`, `kz` and a level `i` with `0 ≤ i ≤ 15`,
`genPos` returns `bit_i(kx) + 2 * bit_i(ky) + 4 * bit_i(kz)` with
`bit_i(k) = (k / 2^i) mod 2`; the result lies in `0..7`, and its three bits
are bit `i` of the three axis keys. -/
theorem genPos_bits (kx ky kz i : Nat) (_hx : kx ≤ 65535) (_hy : ky ≤ 65535) (_hz : kz ≤ 65535)
    (_hi : i ≤ 15) :
    genPos (kx, ky, kz) i = kx / 2 ^ i % 2 + 2 * (ky / 2 ^ i % 2) + 4 * (kz / 2 ^ i % 2) ∧
      genPos (kx, ky, kz) i ≤ 7 ∧
      genPos (kx, ky, kz) i % 2 = kx / 2 ^ i % 2 ∧
      genPos (kx, ky, kz) i / 2 % 2 = ky / 2 ^ i % 2 ∧
      genPos (kx, ky, kz) i / 4 % 2 = kz / 2 ^ i % 2 := by
  have hg := genPos_eq (kx, ky, kz) i
  simp only at hg
  have h1 := Nat.mod_two_eq_zero_or_one (kx / 2 ^ i)
  have h2 := Nat.mod_two_eq_zero_or_one (ky / 2 ^ i)
  have h3 := Nat.mod_two_eq_zero_or_one (kz / 2 ^ i)
  refine ⟨hg, ?_, ?_, ?_, ?_⟩ <;> omega

theorem search_out_of_range_aux (t : AbstractOcTree α) (P : point3d)
    (h : genKey t (P.get 0) = none ∨ genKey t (P.get 1) = none ∨ genKey t (P.get 2) = none) :
    search t P = some (false, NodePtr.null) := by
  unfold search
  rcases h with h | h | h
  · rw [h]
  · rw [h]
    cases genKey t (P.get 0) <;> rfl
  · rw [h]
    cases genKey t (P.get 0) with
    | none => rfl
    | some k0 =>
      cases genKey t (P.get 1) <;> rfl

/-- C5: if `genKey` fails on one of the three coordinates of a point, `search`
returns false with `result = NULL`, whatever the tree holds. -/
theorem search_out_of_range (t : AbstractOcTree α) (P : point3d)
    (h : genKey t (P.get 0) = none ∨ genKey t (P.get 1) = none ∨ genKey t (P.get 2) = none) :
    search t P = some (false, NodePtr.null) :=
  search_out_of_range_aux t P h

/-! ## Search -/

theorem slot_null (i : Nat) : (NodePtr.null : NodePtr α).slot i = NodePtr.null := rfl

theorem follow_null (p : List Nat) : (NodePtr.null : NodePtr α).follow p = NodePtr.null := by
  induction p with
  | nil => rfl
  | cons i p ih => simpa [NodePtr.follow, slot_null] using ih

theorem follow_append (n : NodePtr α) (p q : List Nat) :
    n.follow (p ++ q) = (n.follow p).follow q := by
  induction p generalizing n with
  | nil => rfl
  | cons i p ih => simpa [NodePtr.follow] using ih (n.slot i)

theorem reaches_prefix (n : NodePtr α) (p q : List Nat) (h : reaches n (p ++ q)) :
    reaches n p := by
  unfold reaches at *
  rw [follow_append] at h
  cases hn : n.follow p with
  | null => rw [hn, follow_null] at h; exact absurd h (by simp [NodePtr.isNull])
  | node d ch => rfl

theorem keyPath_add (key : Nat × Nat × Nat) (lo a b : Nat) :
    keyPath key lo (a + b) = keyPath key (lo + a) b ++ keyPath key lo a := by
  induction b with
  | zero => simp [keyPath]
  | succ b ih =>
    rw [← Nat.add_assoc, keyPath, keyPath, ih, Nat.add_assoc lo a b]
    rfl

theorem genPos_lt (key : Nat × Nat × Nat) (i : Nat) : genPos key i < 8 := by
  rw [genPos_eq]
  have h1 := Nat.mod_two_eq_zero_or_one (key.1 / 2 ^ i)
  have h2 := Nat.mod_two_eq_zero_or_one (key.2.1 / 2 ^ i)
  have h3 := Nat.mod_two_eq_zero_or_one (key.2.2 / 2 ^ i)
  omega

theorem loop_count (t : AbstractOcTree α) (hd : t.tree_depth = 16) :
    (toSigned (unsignedSub t.tree_depth 1) + 1).toNat = 16 := by
  rw [hd]
  decide

theorem search_eq_loop (t : AbstractOcTree α) (hd : t.tree_depth = 16) (P : point3d)
    (kx ky kz : Nat) (hx : genKey t (P.get 0) = some kx) (hy : genKey t (P.get 1) = some ky)
    (hz : genKey t (P.get 2) = some kz) :
    search t P = searchLoop (kx, ky, kz) 16 t.itsRoot := by
  simp only [search, hx, hy, hz, loop_count t hd]

theorem searchLoop_descend (key : Nat × Nat × Nat) (lo : Nat) :
    ∀ (m : Nat) (cur : NodePtr α), reaches cur (keyPath key lo m) →
      searchLoop key (lo + m) cur = searchLoop key lo (cur.follow (keyPath key lo m)) := by
  intro m
  induction m with
  | zero => intro cur _; rfl
  | succ m ih =>
    intro cur h
    cases cur with
    | null =>
      unfold reaches at h
      rw [follow_null] at h
      exact absurd h (by simp [NodePtr.isNull])
    | node d ch =>
      have hstep : ((NodePtr.node d ch).slot (genPos key (lo + m))).follow (keyPath key lo m) =
          (NodePtr.node d ch).follow (keyPath key lo (m + 1)) := rfl
      have hr : reaches ((NodePtr.node d ch).slot (genPos key (lo + m))) (keyPath key lo m) := h
      have hex : (NodePtr.node d ch).childExists (genPos key (lo + m)) = true := by
        unfold NodePtr.childExists
        cases hs : (NodePtr.node d ch).slot (genPos key (lo + m)) with
        | null =>
          unfold reaches at hr
          rw [hs, follow_null] at hr
          exact absurd hr (by simp [NodePtr.isNull])
        | node d2 ch2 => rfl
      rw [← hstep, ← ih _ hr, ← Nat.add_assoc, searchLoop]
      simp only [hex, if_true, NodePtr.getChild]

theorem searchLoop_absent (key : Nat × Nat × Nat) (j : Nat) (cur : NodePtr α)
    (hcur : cur.isNull = false) (habs : cur.childExists (genPos key j) = false) :
    searchLoop key (j + 1) cur =
      some (if cur.hasChildren then (false, NodePtr.null) else (true, cur)) := by
  cases cur with
  | null => exact absurd hcur (by simp [NodePtr.isNull])
  | node d ch =>
    rw [searchLoop]
    simp only [habs]
    cases hc : (NodePtr.node d ch).hasChildren <;> simp

/-- C6: for a representable point with keys `(kx, ky, kz)`, let `j` be the
first level, descending from the root by the child indices `genPos(key, i)`
for `i = 15, 14, ...`, at which the expected child is absent, and let `cur` be
the node reached there. If `cur` has no children at all, `search` returns true
with `result = cur`; if `cur` has some child, `search` returns false with
`result = NULL`. -/
theorem search_absent_child (t : AbstractOcTree α) (h : Configured t) (P : point3d)
    (kx ky kz : Nat) (hx : genKey t (P.get 0) = some kx) (hy : genKey t (P.get 1) = some ky)
    (hz : genKey t (P.get 2) = some kz) (j : Nat) (hj : j ≤ 15)
    (hcur : reaches t.itsRoot (keyPath (kx, ky, kz) (j + 1) (15 - j)))
    (habs : (t.itsRoot.follow (keyPath (kx, ky, kz) (j + 1) (15 - j))).childExists
      (genPos (kx, ky, kz) j) = false) :
    ((t.itsRoot.follow (keyPath (kx, ky, kz) (j + 1) (15 - j))).hasChildren = false →
        search t P = some (true, t.itsRoot.follow (keyPath (kx, ky, kz) (j + 1) (15 - j)))) ∧
      ((t.itsRoot.follow (keyPath (kx, ky, kz) (j + 1) (15 - j))).hasChildren = true →
        search t P = some (false, NodePtr.null)) := by
  have hs : search t P = some (if (t.itsRoot.follow (keyPath (kx, ky, kz) (j + 1)
      (15 - j))).hasChildren then (false, NodePtr.null)
      else (true, t.itsRoot.follow (keyPath (kx, ky, kz) (j + 1) (15 - j)))) := by
    rw [search_eq_loop t h.depth P kx ky kz hx hy hz]
    have h16 : 16 = (j + 1) + (15 - j) := by omega
    rw [h16, searchLoop_descend (kx, ky, kz) (j + 1) (15 - j) t.itsRoot hcur]
    exact searchLoop_absent (kx, ky, kz) j _ hcur habs
  constructor
  · intro hc
    rw [hs, hc]
    rfl
  · intro hc
    rw [hs, hc]
    rfl

theorem reaches_levels (key : Nat × Nat × Nat) (root : NodePtr α)
    (h : reaches root (keyPath key 0 16)) (m : Nat) (hm : m ≤ 16) :
    reaches root (keyPath key (16 - m) m) := by
  have h16 : 16 = (16 - m) + m := by omega
  have hk := keyPath_add key 0 (16 - m) m
  rw [← h16, Nat.zero_add] at hk
  rw [hk] at h
  exact reaches_prefix root _ _ h

theorem insertLoop_reaches (fresh : α) (key : Nat × Nat × Nat) :
    ∀ (n : Nat) (cur : NodePtr α), cur.isNull = false →
      reaches (insertLoop fresh key n cur) (keyPath key 0 n) := by
  intro n
  induction n with
  | zero => intro cur h; exact h
  | succ n ih =>
    intro cur h
    cases cur with
    | null => exact absurd h (by simp [NodePtr.isNull])
    | node d ch =>
      have hlt := genPos_lt key n
      unfold reaches
      rw [insertLoop, dif_pos hlt, keyPath, Nat.zero_add, NodePtr.follow]
      simp only [NodePtr.slot, dif_pos hlt, Function.update_same]
      apply ih
      by_cases hc : (NodePtr.node d ch).childExists (genPos key n) = true
      · rw [if_pos hc]
        simpa [NodePtr.childExists, NodePtr.slot, dif_pos hlt] using hc
      · rw [if_neg hc]
        rfl

theorem insertLoop_fixed (fresh : α) (key : Nat × Nat × Nat) :
    ∀ (n : Nat) (cur : NodePtr α), reaches cur (keyPath key 0 n) →
      insertLoop fresh key n cur = cur := by
  intro n
  induction n with
  | zero => intro cur _; rfl
  | succ n ih =>
    intro cur h
    cases cur with
    | null => rfl
    | node d ch =>
      have hlt := genPos_lt key n
      have hr : reaches ((NodePtr.node d ch).slot (genPos key n)) (keyPath key 0 n) := by
        have h2 := h
        rw [keyPath, Nat.zero_add] at h2
        exact h2
      have hs : (NodePtr.node d ch).slot (genPos key n) = ch ⟨genPos key n, hlt⟩ := by
        simp [NodePtr.slot, dif_pos hlt]
      have hex : (NodePtr.node d ch).childExists (genPos key n) = true := by
        unfold NodePtr.childExists
        cases hc : (NodePtr.node d ch).slot (genPos key n) with
        | null =>
          unfold reaches at hr
          rw [hc, follow_null] at hr
          exact absurd hr (by simp [NodePtr.isNull])
        | node d2 ch2 => rfl
      rw [insertLoop, dif_pos hlt]
      simp only [hex, if_true]
      rw [hs] at hr
      rw [ih _ hr, Function.update_eq_self]

theorem searchLoop_full (key : Nat × Nat × Nat) (root : NodePtr α)
    (h : reaches root (keyPath key 0 16)) :
    searchLoop key 16 root = some (true, root.follow (keyPath key 0 16)) := by
  have hd := searchLoop_descend key 0 16 root h
  rw [Nat.zero_add] at hd
  rw [hd, searchLoop]

/-- C7: for a representable point with keys `(kx, ky, kz)`, if all nodes on
the path root, child `genPos(key, 15)`, child `genPos(key, 14)`, ..., child
`genPos(key, 0)` exist, `search` returns true with `result` the depth-16 node
at the end of that path. That node is the one a point update of the cell
arrives at: creating the missing nodes along the path creates nothing here,
and after that creation on any existing root the search returns the node at
the end of the created path. -/
theorem search_full_path (t : AbstractOcTree α) (h : Configured t) (P : point3d)
    (kx ky kz : Nat) (hx : genKey t (P.get 0) = some kx) (hy : genKey t (P.get 1) = some ky)
    (hz : genKey t (P.get 2) = some kz)
    (hall : ∀ m : Nat, m ≤ 16 → reaches t.itsRoot (keyPath (kx, ky, kz) (16 - m) m)) :
    search t P = some (true, t.itsRoot.follow (keyPath (kx, ky, kz) 0 16)) ∧
      (∀ fresh : α, insertLoop fresh (kx, ky, kz) 16 t.itsRoot = t.itsRoot) ∧
      (∀ (fresh : α) (r0 : NodePtr α), r0.isNull = false →
        (∀ m : Nat, m ≤ 16 →
          reaches (insertLoop fresh (kx, ky, kz) 16 r0) (keyPath (kx, ky, kz) (16 - m) m)) ∧
        search { t with itsRoot := insertLoop fresh (kx, ky, kz) 16 r0 } P =
          some (true, (insertLoop fresh (kx, ky, kz) 16 r0).follow (keyPath (kx, ky, kz) 0 16))) := by
  have hfull : reaches t.itsRoot (keyPath (kx, ky, kz) 0 16) := hall 16 (Nat.le_refl 16)
  refine ⟨?_, ?_, ?_⟩
  · rw [search_eq_loop t h.depth P kx ky kz hx hy hz]
    exact searchLoop_full (kx, ky, kz) t.itsRoot hfull
  · intro fresh
    exact insertLoop_fixed fresh (kx, ky, kz) 16 t.itsRoot hfull
  · intro fresh r0 hr0
    have hnew := insertLoop_reaches fresh (kx, ky, kz) 16 r0 hr0
    refine ⟨fun m hm => reaches_levels (kx, ky, kz) _ hnew m hm, ?_⟩
    rw [search_eq_loop { t with itsRoot := insertLoop fresh (kx, ky, kz) 16 r0 } h.depth P
      kx ky kz hx hy hz]
    exact searchLoop_full (kx, ky, kz) _ hnew

/-! ## Leaf extraction -/

theorem childExists_node (d : α) (ch : Fin 8 → NodePtr α) (i : Fin 8) :
    (NodePtr.node d ch).childExists i.val = !(ch i).isNull := by
  simp [NodePtr.childExists, NodePtr.slot, i.isLt]

theorem foldl_eq_flatMap {ι β : Type} (F : ι → List β) (step : List β → ι → List β)
    (hstep : ∀ acc i, step acc i = acc ++ F i) (l : List ι) (acc : List β) :
    l.foldl step acc = acc ++ l.flatMap F := by
  induction l generalizing acc with
  | nil => simp
  | cons a l ih => simp [List.foldl, ih, hstep, List.flatMap_cons, List.append_assoc]

theorem leafVolume_cons (t : AbstractOcTree α) (pc : point3d) (depth i : Nat) (p : List Nat) :
    leafVolume t pc depth (i :: p) =
      leafVolume t (searchCenter pc (t.tree_center.get 0 / 2 ^ (depth + 1)) i) (depth + 1) p := by
  simp only [leafVolume, pathCenter, List.length_cons]
  have : depth + (p.length + 1) = depth + 1 + p.length := by omega
  rw [this]

theorem getLeafNodesRecurs_eq (t : AbstractOcTree α) (md : Nat) (n : NodePtr α) :
    ∀ (depth : Nat) (pc : point3d) (nodes : List OcTreeVolume), depth ≤ md →
      getLeafNodesRecurs t n depth md pc nodes =
        nodes ++ (leafPaths n (md - depth)).map (leafVolume t pc depth) := by
  induction n with
  | null => intro depth pc nodes _; simp [getLeafNodesRecurs, leafPaths]
  | node d ch ih =>
    intro depth pc nodes hle
    rw [getLeafNodesRecurs, if_pos hle, leafPaths]
    by_cases hc : (NodePtr.node d ch).hasChildren = true ∧ depth ≠ md
    · have hb : (NodePtr.node d ch).hasChildren = true ∧ md - depth ≠ 0 := ⟨hc.1, by omega⟩
      rw [if_pos hc, if_pos hb]
      have hlt : depth + 1 ≤ md := by omega
      rw [foldl_eq_flatMap (fun i : Fin 8 => (leafPaths (ch i) (md - (depth + 1))).map
        (leafVolume t (searchCenter pc (t.tree_center.get 0 / 2 ^ (depth + 1)) i.val) (depth + 1)))]
      · rw [List.map_flatMap]
        have hsub : md - depth - 1 = md - (depth + 1) := by omega
        simp only [List.map_map, hsub]
        congr 2
        funext i
        congr 1
        funext p
        exact (leafVolume_cons t pc depth i.val p).symm
      · intro acc i
        rw [childExists_node]
        cases hi : ch i with
        | null => simp [NodePtr.isNull, leafPaths]
        | node d2 ch2 =>
          have := ih i (depth + 1) (searchCenter pc (t.tree_center.get 0 / 2 ^ (depth + 1)) i.val)
            acc hlt
          rw [hi] at this
          simpa [NodePtr.isNull] using this
    · have hb : ¬((NodePtr.node d ch).hasChildren = true ∧ md - depth ≠ 0) := by
        intro hh
        exact hc ⟨hh.1, by omega⟩
      rw [if_neg hc, if_neg hb]
      simp [leafVolume, pathCenter]

theorem getLeafNodes_eq (t : AbstractOcTree α) (hroot : t.itsRoot.isNull = false)
    (hsize : 1 < t.size) (md : Nat) (nodes : List OcTreeVolume) :
    getLeafNodes t md nodes =
      some (nodes ++ (leafPaths t.itsRoot md).map (leafVolume t t.tree_center 0)) := by
  have hs : ¬ t.tree_size ≤ 1 := by
    unfold size at hsize
    omega
  rw [getLeafNodes, hroot, if_neg hs, getLeafNodesRecurs_eq t md t.itsRoot 0 _ _ (Nat.zero_le md)]
  simp

/-- C8: for a tree whose `size()` is 0 or 1 (only the root exists),
`getLeafNodes` returns with the output list exactly as it was passed in,
whatever `max_depth` is. -/
theorem getLeafNodes_root_only (t : AbstractOcTree α) (hroot : t.itsRoot.isNull = false)
    (hsize : t.size = 0 ∨ t.size = 1) (max_depth : Nat) (nodes : List OcTreeVolume) :
    getLeafNodes t max_depth nodes = some nodes := by
  have hs : t.tree_size ≤ 1 := by
    unfold size at hsize
    omega
  rw [getLeafNodes, hroot, if_pos hs]
  simp

theorem isNull_null_ne : ¬ ((NodePtr.null : NodePtr α).isNull = false) := by
  simp [NodePtr.isNull]

theorem slot_lt (n : NodePtr α) (i : Nat) (h : (n.slot i).isNull = false) : i < 8 := by
  cases n with
  | null => exact absurd h isNull_null_ne
  | node d ch =>
    by_contra hlt
    simp [NodePtr.slot, hlt, NodePtr.isNull] at h

theorem hasChildren_of_slot (n : NodePtr α) (i : Nat) (h : (n.slot i).isNull = false) :
    n.hasChildren = true := by
  unfold NodePtr.hasChildren
  rw [List.any_eq_true]
  exact ⟨i, List.mem_range.2 (slot_lt n i h), by simp [NodePtr.childExists, h]⟩

theorem reaches_cons (n : NodePtr α) (i : Nat) (q : List Nat) (h : reaches n (i :: q)) :
    (n.slot i).isNull = false ∧ reaches (n.slot i) q := by
  refine ⟨?_, h⟩
  cases hs : n.slot i with
  | null =>
    unfold reaches at h
    rw [NodePtr.follow, hs, follow_null] at h
    exact absurd h isNull_null_ne
  | node d ch => rfl

theorem mem_fin8 (i : Fin 8) : i ∈ ([0, 1, 2, 3, 4, 5, 6, 7] : List (Fin 8)) := by
  revert i
  decide

theorem mem_leafPaths (n : NodePtr α) :
    ∀ (budget : Nat) (p : List Nat), p ∈ leafPaths n budget ↔ reported n budget p := by
  induction n with
  | null =>
    intro budget p
    simp only [leafPaths, List.not_mem_nil, false_iff]
    rintro ⟨hr, _⟩
    unfold reaches at hr
    rw [follow_null] at hr
    exact absurd hr isNull_null_ne
  | node d ch ih =>
    intro budget p
    rw [leafPaths]
    by_cases hc : (NodePtr.node d ch).hasChildren = true ∧ budget ≠ 0
    · rw [if_pos hc, List.mem_flatMap]
      constructor
      · rintro ⟨i, _, hp⟩
        rw [List.mem_map] at hp
        obtain ⟨q, hq, rfl⟩ := hp
        obtain ⟨hrq, hq2⟩ := (ih i (budget - 1) q).1 hq
        have hslot : (NodePtr.node d ch).slot i.val = ch i := by
          simp [NodePtr.slot, i.isLt]
        refine ⟨?_, ?_⟩
        · unfold reaches
          rw [NodePtr.follow, hslot]
          exact hrq
        · rw [NodePtr.follow, hslot, List.length_cons]
          rcases hq2 with ⟨h1, h2⟩ | h2
          · exact Or.inl ⟨h1, by omega⟩
          · exact Or.inr (by omega)
      · rintro ⟨hr, hq2⟩
        cases p with
        | nil =>
          simp only [NodePtr.follow, List.length_nil] at hq2
          rcases hq2 with ⟨h1, _⟩ | h2
          · rw [hc.1] at h1
            cases h1
          · exact absurd h2.symm hc.2
        | cons i q =>
          obtain ⟨hs, hrq⟩ := reaches_cons _ i q hr
          have hlt := slot_lt _ i hs
          have hslot : (NodePtr.node d ch).slot i = ch ⟨i, hlt⟩ := by
            simp [NodePtr.slot, hlt]
          refine ⟨⟨i, hlt⟩, mem_fin8 _, ?_⟩
          rw [List.mem_map]
          refine ⟨q, ?_, rfl⟩
          rw [ih ⟨i, hlt⟩ (budget - 1) q]
          rw [hslot] at hrq
          refine ⟨hrq, ?_⟩
          rw [NodePtr.follow, hslot, List.length_cons] at hq2
          rcases hq2 with ⟨h1, h2⟩ | h2
          · exact Or.inl ⟨h1, by omega⟩
          · exact Or.inr (by omega)
    · rw [if_neg hc, List.mem_singleton]
      constructor
      · rintro rfl
        refine ⟨rfl, ?_⟩
        simp only [NodePtr.follow, List.length_nil]
        by_cases hh : (NodePtr.node d ch).hasChildren = true
        · have hb : budget = 0 := by
            by_contra hb
            exact hc ⟨hh, hb⟩
          exact Or.inr hb.symm
        · exact Or.inl ⟨by simpa using hh, Nat.zero_le _⟩
      · rintro ⟨hr, hq2⟩
        cases p with
        | nil => rfl
        | cons i q =>
          exfalso
          obtain ⟨hs, _⟩ := reaches_cons _ i q hr
          have hh := hasChildren_of_slot _ i hs
          have hb : budget = 0 := by
            by_contra hb
            exact hc ⟨hh, hb⟩
          rw [List.length_cons] at hq2
          rcases hq2 with ⟨_, h2⟩ | h2 <;> omega

theorem nodup_leafPaths (n : NodePtr α) : ∀ budget : Nat, (leafPaths n budget).Nodup := by
  induction n with
  | null => intro budget; simp [leafPaths]
  | node d ch ih =>
    intro budget
    rw [leafPaths]
    by_cases hc : (NodePtr.node d ch).hasChildren = true ∧ budget ≠ 0
    · rw [if_pos hc, List.nodup_flatMap]
      constructor
      · intro i _
        exact (ih i (budget - 1)).map (fun a b hab => (List.cons.inj hab).2)
      · have hnd : ([0, 1, 2, 3, 4, 5, 6, 7] : List (Fin 8)).Nodup := by decide
        refine List.Pairwise.imp ?_ hnd
        intro a b hab l hla hlb
        rw [List.mem_map] at hla hlb
        obtain ⟨qa, _, rfl⟩ := hla
        obtain ⟨qb, _, hq⟩ := hlb
        exact hab (Fin.ext (List.cons.inj hq).1.symm)
    · rw [if_neg hc]
      simp

/-- C9: for a tree with `size() > 1`, `getLeafNodes(max_depth)` appends one
volume for each node reachable from the root that is childless at a depth
`≤ max_depth` or lies at depth exactly `max_depth`, and nothing else: the
appended volumes are those of the paths of `leafPaths`, a list without
repetition whose members are exactly the paths of these nodes. -/
theorem getLeafNodes_reports (t : AbstractOcTree α) (hroot : t.itsRoot.isNull = false)
    (hsize : 1 < t.size) (max_depth : Nat) (nodes : List OcTreeVolume) :
    getLeafNodes t max_depth nodes =
        some (nodes ++ (leafPaths t.itsRoot max_depth).map (leafVolume t t.tree_center 0)) ∧
      (leafPaths t.itsRoot max_depth).Nodup ∧
      (∀ p : List Nat, p ∈ leafPaths t.itsRoot max_depth ↔
        (reaches t.itsRoot p ∧
          (((t.itsRoot.follow p).hasChildren = false ∧ p.length ≤ max_depth) ∨
            p.length = max_depth))) :=
  ⟨getLeafNodes_eq t hroot hsize max_depth nodes, nodup_leafPaths t.itsRoot max_depth,
    fun p => mem_leafPaths t.itsRoot max_depth p⟩

theorem searchCenter_get (pc : point3d) (off : ℚ) (i a : Nat) (ha : a < 3) :
    (searchCenter pc off i).get a = pc.get a + axisSign a i * off := by
  have h0 := and_shift_ne_zero i 0
  have h1 := and_shift_ne_zero i 1
  have h2 := and_shift_ne_zero i 2
  have e0 : (1 : Nat) <<< 0 = 1 := rfl
  have e1 : (1 : Nat) <<< 1 = 2 := rfl
  have e2 : (1 : Nat) <<< 2 = 4 := rfl
  rw [e0] at h0
  rw [e1] at h1
  rw [e2] at h2
  have ha3 : a = 0 ∨ a = 1 ∨ a = 2 := by omega
  rcases ha3 with rfl | rfl | rfl
  · simp only [searchCenter, point3d.get, axisSign, h0]
    split_ifs <;> ring
  · simp only [searchCenter, point3d.get, axisSign, h1]
    split_ifs <;> ring
  · simp only [searchCenter, point3d.get, axisSign, h2]
    split_ifs <;> ring

theorem pathCenter_get (t : AbstractOcTree α) (a : Nat) (ha : a < 3) (p : List Nat) :
    ∀ (pc : point3d) (depth : Nat),
      (pathCenter t pc depth p).get a =
        pc.get a + Finset.sum (Finset.range p.length) fun k =>
          axisSign a (p.getD k 0) * (t.tree_center.get 0 / 2 ^ (depth + k + 1)) := by
  induction p with
  | nil => intro pc depth; simp [pathCenter]
  | cons i p ih =>
    intro pc depth
    rw [pathCenter, ih, searchCenter_get _ _ _ _ ha, List.length_cons, Finset.sum_range_succ']
    simp only [List.getD_cons_succ, List.getD_cons_zero, Nat.add_zero]
    have hexp : ∀ k : Nat, depth + 1 + k + 1 = depth + (k + 1) + 1 := fun k => by omega
    simp only [hexp]
    ring

theorem tree_center_get (t : AbstractOcTree α) (h : Configured t)
    (a : Nat) : t.tree_center.get a = 32768 * t.resolution := by
  have hc : (t.tree_max_val : ℚ) / t.resolution_factor = 32768 * t.resolution := by
    rw [h.factor, h.max_val]
    field_simp
  have ha : ∀ q : point3d, q.x = q.y → q.y = q.z → q.get a = q.x := by
    intro q h1 h2
    unfold point3d.get
    split
    · rfl
    · exact h1.symm
    · rw [h1, h2]
  rw [ha t.tree_center (by rw [h.center]) (by rw [h.center]), h.center, hc]

theorem leafVolume_centre (t : AbstractOcTree α) (h : Configured t)
    (a : Nat) (ha : a < 3) (p : List Nat) :
    ((leafVolume t t.tree_center 0 p).1).get a = specCentre t.resolution a p := by
  have hsub : ∀ q r : point3d, (q.sub r).get a = q.get a - r.get a := by
    intro q r
    have ha3 : a = 0 ∨ a = 1 ∨ a = 2 := by omega
    rcases ha3 with rfl | rfl | rfl <;> rfl
  simp only [leafVolume, hsub, pathCenter_get t a ha p, specCentre, Nat.zero_add,
    tree_center_get t h]
  rw [add_sub_cancel_left]
  apply Finset.sum_congr rfl
  intro k _
  ring

theorem leafVolume_size (t : AbstractOcTree α) (h : Configured t) (p : List Nat)
    (hp : p.length ≤ 16) :
    (leafVolume t t.tree_center 0 p).2 = t.resolution * 2 ^ (16 - p.length) := by
  have hu : unsignedSub 16 (0 + p.length) = 16 - p.length := by
    unfold unsignedSub
    omega
  simp only [leafVolume, h.depth, hu]

/-- C10, as amended: `getLeafNodes` returns, and for every volume it appends
for a node reached from the root through the child indices `i_0, ...,
i_(d-1)`, on each axis `a` (bit `a` of the child index) the centre is the sum
over `k < d` of `s_k * (32768 * resolution) / 2^(k+1)` with `s_k = +1` when
bit `a` of `i_k` is set and `-1` otherwise; when `d ≤ 16` the size is
`resolution * 2^(16 - d)`; the root (`d = 0`) has centre `(0,0,0)` and size
`resolution * 2^16`. -/
theorem leaf_volume_geometry (t : AbstractOcTree α) (h : Configured t) (_hr : 0 < t.resolution)
    (hroot : t.itsRoot.isNull = false) (hsize : 1 < t.size) (max_depth : Nat)
    (nodes : List OcTreeVolume) :
    ∃ vols : List OcTreeVolume,
      getLeafNodes t max_depth nodes = some (nodes ++ vols) ∧
      vols.length = (leafPaths t.itsRoot max_depth).length ∧
      ∀ (i : Nat) (p : List Nat) (v : OcTreeVolume),
        (leafPaths t.itsRoot max_depth)[i]? = some p → vols[i]? = some v →
          v.1.x = specCentre t.resolution 0 p ∧
          v.1.y = specCentre t.resolution 1 p ∧
          v.1.z = specCentre t.resolution 2 p ∧
          (p.length ≤ 16 → v.2 = t.resolution * 2 ^ (16 - p.length)) ∧
          (p = [] → v.1 = ⟨0, 0, 0⟩ ∧ v.2 = t.resolution * 2 ^ 16) := by
  refine ⟨(leafPaths t.itsRoot max_depth).map (leafVolume t t.tree_center 0),
    getLeafNodes_eq t hroot hsize max_depth nodes, List.length_map _ _, ?_⟩
  intro i p v hp hv
  rw [List.getElem?_map, hp] at hv
  have hv2 : leafVolume t t.tree_center 0 p = v := Option.some.inj hv
  subst hv2
  have hx := leafVolume_centre t h 0 (by decide) p
  have hy := leafVolume_centre t h 1 (by decide) p
  have hz := leafVolume_centre t h 2 (by decide) p
  refine ⟨hx, hy, hz, leafVolume_size t h p, ?_⟩
  rintro rfl
  have h0 : ∀ a : Nat, specCentre t.resolution a [] = 0 := by
    intro a
    simp [specCentre]
  rw [h0] at hx hy hz
  refine ⟨?_, leafVolume_size t h [] (by simp)⟩
  cases hq : (leafVolume t t.tree_center 0 []).1 with
  | mk qx qy qz =>
    rw [hq] at hx hy hz
    simp only [point3d.get] at hx hy hz
    rw [hx, hy, hz]

/-! ## The statements at concrete trees -/

theorem configured_treeOf (root : NodePtr Unit) (n : Nat) : Configured (treeOf root n) :=
  ⟨rfl, rfl, rfl, rfl⟩

theorem genKey_treeOf (root : NodePtr Unit) (n : Nat) (v : ℚ) (z : Int)
    (hz : (z : ℚ) ≤ v ∧ v < (z : ℚ) + 1) :
    genKey (treeOf root n) v =
      if 0 < z + 32768 ∧ z + 32768 < 65536 then some (z + 32768).toNat else none := by
  have hf : (treeOf root n).resolution_factor * v = v := by
    show (1 / 1 : ℚ) * v = v
    norm_num
  have hfl : ⌊v⌋ = z := Int.floor_eq_iff.2 hz
  rw [genKey_eq _ rfl, hf, hfl]

theorem key_round_trip_witness :
    genKey oneLeafTree (7 / 4) = some 32769 ∧
      ∃ c : ℚ, genVal oneLeafTree 32769 = (true, c) ∧ |c - 7 / 4| ≤ oneLeafTree.resolution / 2 ∧
        c = ((⌊(7 / 4 : ℚ) / oneLeafTree.resolution⌋ : ℚ) * oneLeafTree.resolution +
              ((⌊(7 / 4 : ℚ) / oneLeafTree.resolution⌋ : ℚ) + 1) * oneLeafTree.resolution) / 2 ∧
        (⌊(7 / 4 : ℚ) / oneLeafTree.resolution⌋ : ℚ) * oneLeafTree.resolution ≤ 7 / 4 ∧
        (7 / 4 : ℚ) < ((⌊(7 / 4 : ℚ) / oneLeafTree.resolution⌋ : ℚ) + 1) * oneLeafTree.resolution :=
  have hk : genKey oneLeafTree (7 / 4) = some 32769 :=
    genKey_treeOf _ 2 (7 / 4) 1 (by norm_num)
  ⟨hk, key_round_trip oneLeafTree (configured_treeOf _ 2) (by decide) (7 / 4) 32769 hk⟩

theorem genVal_sixteen_bit_witness :
    genVal oneLeafTree 0 = (true, (((0 : Nat) : ℚ) - 32768 + 1 / 2) * oneLeafTree.resolution) ∧
      (∀ key : Nat, (genVal oneLeafTree key).1 = false ↔ key ≥ 65536) :=
  genVal_sixteen_bit oneLeafTree rfl 0 (by decide)

theorem genPos_bits_witness :
    genPos (32768, 32768, 32767) 15 = 3 ∧ genPos (32768, 32768, 32767) 15 ≤ 7 := by
  have h := genPos_bits 32768 32768 32767 15 (by decide) (by decide) (by decide) (by decide)
  exact ⟨h.1.trans (by decide), h.2.1⟩

theorem search_out_of_range_witness :
    genKey oneLeafTree ((⟨40000, 0, 0⟩ : point3d).get 0) = none ∧
      search oneLeafTree ⟨40000, 0, 0⟩ = some (false, NodePtr.null) :=
  have hk : genKey oneLeafTree ((⟨40000, 0, 0⟩ : point3d).get 0) = none :=
    genKey_treeOf _ 2 40000 40000 (by norm_num)
  ⟨hk, search_out_of_range oneLeafTree ⟨40000, 0, 0⟩ (Or.inl hk)⟩

theorem search_absent_child_witness :
    genKey oneLeafTree ((⟨0, 0, -1⟩ : point3d).get 2) = some 32767 ∧
      genPos (32768, 32768, 32767) 15 = 3 ∧ genPos (32768, 32768, 32767) 14 = 4 ∧
      search oneLeafTree ⟨0, 0, -1⟩ = some (true, leafNode) :=
  have hx : genKey oneLeafTree ((⟨0, 0, -1⟩ : point3d).get 0) = some 32768 :=
    genKey_treeOf _ 2 0 0 (by norm_num)
  have hy : genKey oneLeafTree ((⟨0, 0, -1⟩ : point3d).get 1) = some 32768 :=
    genKey_treeOf _ 2 0 0 (by norm_num)
  have hz : genKey oneLeafTree ((⟨0, 0, -1⟩ : point3d).get 2) = some 32767 :=
    (genKey_treeOf _ 2 (-1) (-1) (by norm_num)).trans (by decide)
  ⟨hz, by decide, by decide,
    (search_absent_child oneLeafTree (configured_treeOf _ 2) ⟨0, 0, -1⟩ 32768 32768 32767
      hx hy hz 14 (by decide) (by decide) (by decide)).1 (by decide)⟩

theorem search_full_path_witness :
    search pathTree ⟨0, 0, 0⟩ =
        some (true, pathTree.itsRoot.follow (keyPath (32768, 32768, 32768) 0 16)) ∧
      pathTree.itsRoot.follow (keyPath (32768, 32768, 32768) 0 16) = leafNode ∧
      keyPath (32768, 32768, 32768) 0 16 = [7, 0, 0, 0, 0, 0, 0, 0, 0, 0, 0, 0, 0, 0, 0, 0] :=
  have hk : genKey pathTree 0 = some 32768 := genKey_treeOf _ 17 0 0 (by norm_num)
  ⟨(search_full_path pathTree (configured_treeOf _ 17) ⟨0, 0, 0⟩ 32768 32768 32768 hk hk hk
      (fun m hm => reaches_levels (32768, 32768, 32768) _
        (insertLoop_reaches () (32768, 32768, 32768) 16 leafNode rfl) m hm)).1,
    rfl, by decide⟩

theorem getLeafNodes_root_only_witness :
    rootOnlyTree.size = 1 ∧ getLeafNodes rootOnlyTree 16 [] = some [] :=
  ⟨rfl, getLeafNodes_root_only rootOnlyTree rfl (Or.inr rfl) 16 []⟩

theorem getLeafNodes_reports_witness :
    leafPaths oneLeafTree.itsRoot 1 = [[3]] ∧
      getLeafNodes oneLeafTree 1 [] =
        some [leafVolume oneLeafTree oneLeafTree.tree_center 0 [3]] ∧
      (getLeafNodes oneLeafTree 1 []).map List.length = some 1 :=
  have hp : leafPaths oneLeafTree.itsRoot 1 = [[3]] := by decide
  have hg : getLeafNodes oneLeafTree 1 [] =
      some [leafVolume oneLeafTree oneLeafTree.tree_center 0 [3]] :=
    (getLeafNodes_reports oneLeafTree rfl (by decide) 1 []).1.trans (by rw [hp]; rfl)
  ⟨hp, hg, by rw [hg]; rfl⟩

theorem leaf_volume_geometry_witness :
    ∃ vols : List OcTreeVolume,
      getLeafNodes oneLeafTree 1 [] = some ([] ++ vols) ∧
      vols.length = (leafPaths oneLeafTree.itsRoot 1).length ∧
      ∀ (i : Nat) (p : List Nat) (v : OcTreeVolume),
        (leafPaths oneLeafTree.itsRoot 1)[i]? = some p → vols[i]? = some v →
          v.1.x = specCentre oneLeafTree.resolution 0 p ∧
          v.1.y = specCentre oneLeafTree.resolution 1 p ∧
          v.1.z = specCentre oneLeafTree.resolution 2 p ∧
          (p.length ≤ 16 → v.2 = oneLeafTree.resolution * 2 ^ (16 - p.length)) ∧
          (p = [] → v.1 = ⟨0, 0, 0⟩ ∧ v.2 = oneLeafTree.resolution * 2 ^ 16) :=
  leaf_volume_geometry oneLeafTree (configured_treeOf _ 2) (by decide) rfl (by decide) 1 []

/-- C10 as first stated fails below the depth of the tree: in `deepTree`
the only volume of `getLeafNodes(17)` belongs to the leaf at depth `d = 17`,
reached through seventeen child indices 0, and its size is not
`resolution * 2^(16 - 17)`: the exponent `tree_depth - depth` is computed in
`unsigned int`, so the size is at least the resolution. -/
theorem leaf_volume_size_beyond_depth :
    ∃ (c : point3d) (s : ℚ),
      getLeafNodes deepTree 17 [] = some [(c, s)] ∧
      leafPaths deepTree.itsRoot 17 = [List.replicate 17 0] ∧
      s ≠ deepTree.resolution * (2 : ℚ) ^ ((16 : Int) - 17) ∧
      deepTree.resolution ≤ s := by
  have hp : leafPaths deepTree.itsRoot 17 = [List.replicate 17 0] := by decide
  have hg := getLeafNodes_eq deepTree rfl (by decide) 17 []
  rw [hp] at hg
  obtain ⟨n, hn⟩ : ∃ n : Nat,
      (leafVolume deepTree deepTree.tree_center 0 (List.replicate 17 0)).2 =
        deepTree.resolution * 2 ^ n := ⟨_, rfl⟩
  have hr : deepTree.resolution = 1 := rfl
  have hpow : (1 : ℚ) ≤ 2 ^ n := one_le_pow₀ (by norm_num)
  have hhalf : (2 : ℚ) ^ ((16 : Int) - 17) = 1 / 2 := by norm_num
  refine ⟨(leafVolume deepTree deepTree.tree_center 0 (List.replicate 17 0)).1,
    (leafVolume deepTree deepTree.tree_center 0 (List.replicate 17 0)).2, hg, hp, ?_, ?_⟩
  · rw [hn, hr, hhalf]
    intro hcontra
    linarith
  · rw [hn, hr]
    linarith

/-! ## Voxel extraction -/

theorem getVoxelsRecurs_eq (t : AbstractOcTree α) (md : Nat) (n : NodePtr α) :
    ∀ (depth : Nat) (pc : point3d) (voxels : List OcTreeVolume), depth ≤ md →
      getVoxelsRecurs t n depth md pc voxels =
        voxels ++ (voxelSlots n (md - depth)).map fun s => leafVolume t pc depth s.1 := by
  induction n with
  | null => intro depth pc voxels _; simp [getVoxelsRecurs, voxelSlots]
  | node d ch ih =>
    intro depth pc voxels hle
    rw [getVoxelsRecurs, if_pos hle, voxelSlots]
    by_cases hc : (NodePtr.node d ch).hasChildren = true ∧ depth ≠ md
    · have hb : (NodePtr.node d ch).hasChildren = true ∧ md - depth ≠ 0 := ⟨hc.1, by omega⟩
      rw [if_pos hc, if_pos hb]
      have hlt : depth + 1 ≤ md := by omega
      have hsub : md - depth - 1 = md - (depth + 1) := by omega
      rw [foldl_eq_flatMap (fun i : Fin 8 =>
        if (NodePtr.node d ch).childExists i.val then
          (voxelSlots (ch i) (md - (depth + 1))).map fun s =>
            leafVolume t (searchCenter pc (t.tree_center.get 0 / 2 ^ (depth + 1)) i.val)
              (depth + 1) s.1
        else [leafVolume t pc depth []])]
      · rw [List.map_flatMap, hsub]
        congr 2
        funext i
        by_cases hi : (NodePtr.node d ch).childExists i.val = true
        · rw [if_pos hi, if_pos hi, List.map_map]
          congr 1
          funext s
          exact (leafVolume_cons t pc depth i.val s.1).symm
        · rw [if_neg hi, if_neg hi]
          rfl
      · intro acc i
        by_cases hi : (NodePtr.node d ch).childExists i.val = true
        · rw [if_pos hi, if_pos hi]
          exact ih i (depth + 1) _ acc hlt
        · rw [if_neg hi, if_neg hi]
          rfl
    · have hb : ¬((NodePtr.node d ch).hasChildren = true ∧ md - depth ≠ 0) := by
        intro hh
        exact hc ⟨hh.1, by omega⟩
      rw [if_neg hc, if_neg hb]
      simp

theorem getVoxels_eq (t : AbstractOcTree α) (hroot : t.itsRoot.isNull = false)
    (md : Nat) (voxels : List OcTreeVolume) :
    getVoxels t md voxels =
      some (voxels ++ (voxelSlots t.itsRoot md).map fun s => leafVolume t t.tree_center 0 s.1) := by
  rw [getVoxels, hroot, getVoxelsRecurs_eq t md t.itsRoot 0 _ _ (Nat.zero_le md)]
  simp

theorem leafVolume_nil (t : AbstractOcTree α) (h : Configured t) :
    leafVolume t t.tree_center 0 [] = (⟨0, 0, 0⟩, t.resolution * 2 ^ 16) := by
  have hs := leafVolume_size t h [] (Nat.zero_le 16)
  have hc : (leafVolume t t.tree_center 0 []).1 = ⟨0, 0, 0⟩ := by
    simp [leafVolume, pathCenter, point3d.sub]
  exact Prod.ext hc hs

theorem voxelSlots_zero (n : NodePtr α) : voxelSlots n 0 = [] := by
  cases n with
  | null => rfl
  | node d ch => simp [voxelSlots]

theorem voxelSlots_childless (n : NodePtr α) (h : n.hasChildren = false) (budget : Nat) :
    voxelSlots n budget = [] := by
  cases n with
  | null => rfl
  | node d ch => simp [voxelSlots, h]

theorem getVoxels_one_child (t : AbstractOcTree α) (h : Configured t)
    (d : α) (i0 : Fin 8) (c : NodePtr α) (hc : c.isNull = false) 
    (hroot : t.itsRoot = NodePtr.node d fun j => if j = i0 then c else NodePtr.null)
    (voxels : List OcTreeVolume) :
    getVoxels t 1 voxels =
      some (voxels ++ List.replicate 7 ((⟨0, 0, 0⟩ : point3d), t.resolution * 2 ^ 16)) := by
  have hnn : t.itsRoot.isNull = false := by rw [hroot]; rfl
  have hhas : (NodePtr.node d fun j => if j = i0 then c else NodePtr.null).hasChildren = true := by
    apply hasChildren_of_slot _ i0.val
    simpa [NodePtr.slot, i0.isLt] using hc
  rw [getVoxels_eq t hnn, hroot, voxelSlots, if_pos ⟨hhas, by decide⟩]
  simp only [childExists_node, voxelSlots_zero, List.map_nil, Nat.sub_self]
  congr 2
  have hnull : (NodePtr.null : NodePtr α).isNull = true := rfl
  fin_cases i0 <;>
    simp [hc, hnull, leafVolume_nil t h, List.replicate]

/-- C11, as amended: for a tree whose root has exactly one child, that child
being a leaf (any child index, any resolution `r > 0`), `getVoxels(1)` appends
7 volumes: none for the populated leaf and one for each of the 7 absent child
slots of the root, each with the root's own centre `(0,0,0)` and the root's
own size `r * 2^16`. -/
theorem getVoxels_single_leaf (t : AbstractOcTree α) (h : Configured t) (_hr : 0 < t.resolution)
    (d : α) (i0 : Fin 8) (c : NodePtr α) (hc : c.isNull = false) (_hcl : c.hasChildren = false)
    (hroot : t.itsRoot = NodePtr.node d fun j => if j = i0 then c else NodePtr.null)
    (voxels : List OcTreeVolume) :
    getVoxels t 1 voxels =
      some (voxels ++ List.replicate 7 ((⟨0, 0, 0⟩ : point3d), t.resolution * 2 ^ 16)) :=
  getVoxels_one_child t h d i0 c hc hroot voxels

theorem getVoxels_single_leaf_witness :
    oneLeafTree.itsRoot = (NodePtr.node () fun j => if j = 3 then leafNode else NodePtr.null) ∧
      leafNode.hasChildren = false ∧
      getVoxels oneLeafTree 1 [] =
        some ([] ++ List.replicate 7 ((⟨0, 0, 0⟩ : point3d), oneLeafTree.resolution * 2 ^ 16)) :=
  ⟨rfl, by decide,
    getVoxels_single_leaf oneLeafTree (configured_treeOf _ 2) (by decide) () 3 leafNode rfl
      (by decide) rfl []⟩

/-- C11 as first stated fails on the root with one leaf child in slot 3 at
resolution 1: `getVoxels(1)` returns 7 volumes, not 8, and each has the size
`resolution * 2^16` of the root, not the size `resolution * 2^15` of a child
of the root. -/
theorem getVoxels_one_leaf_seven :
    ∃ vols : List OcTreeVolume,
      getVoxels oneLeafTree 1 [] = some vols ∧ vols.length = 7 ∧ vols.length ≠ 8 ∧
      ∀ v ∈ vols, v.2 = oneLeafTree.resolution * 2 ^ 16 ∧ v.2 ≠ oneLeafTree.resolution * 2 ^ 15 := by
  refine ⟨List.replicate 7 ((⟨0, 0, 0⟩ : point3d), oneLeafTree.resolution * 2 ^ 16), ?_, ?_, ?_, ?_⟩
  · have hg := getVoxels_one_child oneLeafTree (configured_treeOf _ 2) () 3 leafNode rfl rfl []
    simpa using hg
  · simp
  · simp
  · intro v hv
    rw [List.eq_of_mem_replicate hv]
    have hr : oneLeafTree.resolution = 1 := rfl
    constructor
    · rfl
    · rw [hr]
      norm_num

theorem childExists_of_slot (n : NodePtr α) (i : Nat) (h : (n.slot i).isNull = false) :
    n.childExists i = true := by
  simp [NodePtr.childExists, h]

theorem mem_voxelSlots (n : NodePtr α) :
    ∀ (budget : Nat) (s : List Nat × Nat), s ∈ voxelSlots n budget ↔
      (reaches n s.1 ∧ (n.follow s.1).hasChildren = true ∧ s.1.length < budget ∧ s.2 < 8 ∧
        (n.follow s.1).childExists s.2 = false) := by
  induction n with
  | null =>
    intro budget s
    simp only [voxelSlots, List.not_mem_nil, false_iff]
    rintro ⟨hr, _⟩
    unfold reaches at hr
    rw [follow_null] at hr
    exact absurd hr isNull_null_ne
  | node d ch ih =>
    intro budget s
    rw [voxelSlots]
    by_cases hc : (NodePtr.node d ch).hasChildren = true ∧ budget ≠ 0
    · rw [if_pos hc, List.mem_flatMap]
      constructor
      · rintro ⟨i, _, hs⟩
        have hslot : (NodePtr.node d ch).slot i.val = ch i := by
          simp [NodePtr.slot, i.isLt]
        by_cases hi : (NodePtr.node d ch).childExists i.val = true
        · rw [if_pos hi, List.mem_map] at hs
          obtain ⟨q, hq, rfl⟩ := hs
          obtain ⟨h1, h2, h3, h4, h5⟩ := (ih i (budget - 1) q).1 hq
          refine ⟨?_, ?_, ?_, h4, ?_⟩
          · unfold reaches
            simp only [NodePtr.follow, hslot]
            exact h1
          · simp only [NodePtr.follow, hslot]
            exact h2
          · simp only [List.length_cons]
            omega
          · simp only [NodePtr.follow, hslot]
            exact h5
        · rw [if_neg hi, List.mem_singleton] at hs
          subst hs
          refine ⟨rfl, hc.1, Nat.pos_of_ne_zero hc.2, i.isLt, ?_⟩
          simpa [NodePtr.follow] using hi
      · rintro ⟨h1, h2, h3, h4, h5⟩
        obtain ⟨p, k⟩ := s
        cases p with
        | nil =>
          simp only [NodePtr.follow] at h5
          refine ⟨⟨k, h4⟩, mem_fin8 _, ?_⟩
          simp only []
          rw [if_neg (by rw [h5]; simp)]
          simp
        | cons i q =>
          obtain ⟨hs, hrq⟩ := reaches_cons _ i q h1
          have hlt := slot_lt _ i hs
          have hslot : (NodePtr.node d ch).slot i = ch ⟨i, hlt⟩ := by
            simp [NodePtr.slot, hlt]
          refine ⟨⟨i, hlt⟩, mem_fin8 _, ?_⟩
          simp only []
          rw [if_pos (childExists_of_slot _ i hs), List.mem_map]
          refine ⟨(q, k), ?_, rfl⟩
          rw [ih ⟨i, hlt⟩ (budget - 1) (q, k)]
          simp only [NodePtr.follow, hslot, List.length_cons] at h2 h3 h5
          rw [hslot] at hrq
          have h3q : q.length < budget - 1 := by omega
          exact ⟨hrq, h2, h3q, h4, h5⟩
    · rw [if_neg hc]
      simp only [List.not_mem_nil, false_iff]
      rintro ⟨h1, h2, h3, _, _⟩
      apply hc
      refine ⟨?_, by omega⟩
      cases hp : s.1 with
      | nil =>
        rw [hp] at h2
        exact h2
      | cons i q =>
        rw [hp] at h1
        exact hasChildren_of_slot _ i (reaches_cons _ i q h1).1

theorem nodup_voxelSlots (n : NodePtr α) : ∀ budget : Nat, (voxelSlots n budget).Nodup := by
  induction n with
  | null => intro budget; simp [voxelSlots]
  | node d ch ih =>
    intro budget
    rw [voxelSlots]
    by_cases hc : (NodePtr.node d ch).hasChildren = true ∧ budget ≠ 0
    · rw [if_pos hc, List.nodup_flatMap]
      constructor
      · intro i _
        by_cases hi : (NodePtr.node d ch).childExists i.val = true
        · rw [if_pos hi]
          refine (ih i (budget - 1)).map ?_
          intro a b hab
          have h1 := (List.cons.inj (congrArg Prod.fst hab)).2
          have h2 := congrArg Prod.snd hab
          exact Prod.ext h1 h2
        · rw [if_neg hi]
          simp
      · have hnd : ([0, 1, 2, 3, 4, 5, 6, 7] : List (Fin 8)).Nodup := by decide
        refine List.Pairwise.imp ?_ hnd
        intro a b hab l hla hlb
        beta_reduce at hla hlb
        apply hab
        apply Fin.ext
        by_cases ha : (NodePtr.node d ch).childExists a.val = true
        · rw [if_pos ha, List.mem_map] at hla
          obtain ⟨qa, _, rfl⟩ := hla
          by_cases hb : (NodePtr.node d ch).childExists b.val = true
          · rw [if_pos hb, List.mem_map] at hlb
            obtain ⟨qb, _, hq⟩ := hlb
            exact ((List.cons.inj (congrArg Prod.fst hq)).1).symm
          · rw [if_neg hb, List.mem_singleton] at hlb
            exact absurd (congrArg Prod.fst hlb) (by simp)
        · rw [if_neg ha, List.mem_singleton] at hla
          subst hla
          by_cases hb : (NodePtr.node d ch).childExists b.val = true
          · rw [if_pos hb, List.mem_map] at hlb
            obtain ⟨qb, _, hq⟩ := hlb
            exact absurd (congrArg Prod.fst hq) (by simp)
          · rw [if_neg hb, List.mem_singleton] at hlb
            exact congrArg Prod.snd hlb
    · rw [if_neg hc]
      simp

theorem size_ne_resolution (r : ℚ) (hr : 0 < r) (d : Nat) (hd : d < 16) :
    r * 2 ^ (16 - d) ≠ r := by
  have h2 : (2 : ℚ) ^ 1 ≤ 2 ^ (16 - d) := pow_le_pow_right₀ (by norm_num) (by omega)
  intro hcontra
  nlinarith

/-- C12, as amended: for every tree and every `max_depth ≤ 16`,
`getVoxels(max_depth)` emits no volume at the finest level: each volume it
appends belongs to a branch node at a depth `d < 16` and has the size
`resolution * 2^(16 - d)`, never the resolution itself. The same holds for
`getLeafNodes(max_depth)` when `max_depth ≤ 15`. -/
theorem no_finest_level_volume (t : AbstractOcTree α) (h : Configured t)
    (hr : 0 < t.resolution) (hroot : t.itsRoot.isNull = false) (max_depth : Nat)
    (hmd : max_depth ≤ 16) (voxels nodes : List OcTreeVolume) :
    (∃ vols : List OcTreeVolume,
        getVoxels t max_depth voxels = some (voxels ++ vols) ∧
        ∀ v ∈ vols, ∃ s ∈ voxelSlots t.itsRoot max_depth,
          s.1.length < 16 ∧ v.2 = t.resolution * 2 ^ (16 - s.1.length) ∧ v.2 ≠ t.resolution) ∧
      (max_depth ≤ 15 →
        ∃ vols : List OcTreeVolume,
          getLeafNodes t max_depth nodes = some (nodes ++ vols) ∧
          ∀ v ∈ vols, ∃ p ∈ leafPaths t.itsRoot max_depth,
            p.length < 16 ∧ v.2 = t.resolution * 2 ^ (16 - p.length) ∧ v.2 ≠ t.resolution) := by
  constructor
  · refine ⟨_, getVoxels_eq t hroot max_depth voxels, ?_⟩
    intro v hv
    rw [List.mem_map] at hv
    obtain ⟨s, hs, rfl⟩ := hv
    have hlen : s.1.length < max_depth := ((mem_voxelSlots t.itsRoot max_depth s).1 hs).2.2.1
    have hlt : s.1.length < 16 := by omega
    have hsz := leafVolume_size t h s.1 (by omega)
    refine ⟨s, hs, hlt, hsz, ?_⟩
    rw [hsz]
    exact size_ne_resolution t.resolution hr s.1.length hlt
  · intro hmd15
    by_cases hsize : 1 < t.size
    · refine ⟨_, getLeafNodes_eq t hroot hsize max_depth nodes, ?_⟩
      intro v hv
      rw [List.mem_map] at hv
      obtain ⟨p, hp, rfl⟩ := hv
      have hrep := (mem_leafPaths t.itsRoot max_depth p).1 hp
      have hlen : p.length ≤ max_depth := by
        rcases hrep.2 with ⟨_, h2⟩ | h2 <;> omega
      have hlt : p.length < 16 := by omega
      have hsz := leafVolume_size t h p (by omega)
      refine ⟨p, hp, hlt, hsz, ?_⟩
      rw [hsz]
      exact size_ne_resolution t.resolution hr p.length hlt
    · refine ⟨[], ?_, ?_⟩
      · have hs : t.tree_size ≤ 1 := by
          unfold size at hsize
          omega
        rw [getLeafNodes, hroot, if_pos hs]
        simp
      · intro v hv
        cases hv

theorem no_finest_level_volume_witness :
    (∃ vols : List OcTreeVolume,
        getVoxels oneLeafTree 1 [] = some ([] ++ vols) ∧
        ∀ v ∈ vols, ∃ s ∈ voxelSlots oneLeafTree.itsRoot 1,
          s.1.length < 16 ∧ v.2 = oneLeafTree.resolution * 2 ^ (16 - s.1.length) ∧
            v.2 ≠ oneLeafTree.resolution) ∧
      ((1 : Nat) ≤ 15 →
        ∃ vols : List OcTreeVolume,
          getLeafNodes oneLeafTree 1 [] = some ([] ++ vols) ∧
          ∀ v ∈ vols, ∃ p ∈ leafPaths oneLeafTree.itsRoot 1,
            p.length < 16 ∧ v.2 = oneLeafTree.resolution * 2 ^ (16 - p.length) ∧
              v.2 ≠ oneLeafTree.resolution) :=
  no_finest_level_volume oneLeafTree (configured_treeOf _ 2) (by decide) rfl 1 (by decide) [] []

/-- C12 as first stated fails for `getLeafNodes`: in `pathTree`, whose only
leaf lies at depth 16 at the end of the path `7, 0, ..., 0`,
`getLeafNodes(16)` returns one volume, the one of that depth-16 node, and its
size is the resolution. -/
theorem getLeafNodes_emits_finest :
    ∃ (c : point3d) (s : ℚ),
      getLeafNodes pathTree 16 [] = some [(c, s)] ∧
      leafPaths pathTree.itsRoot 16 = [[7, 0, 0, 0, 0, 0, 0, 0, 0, 0, 0, 0, 0, 0, 0, 0]] ∧
      s = pathTree.resolution := by
  have hp : leafPaths pathTree.itsRoot 16 = [[7, 0, 0, 0, 0, 0, 0, 0, 0, 0, 0, 0, 0, 0, 0, 0]] := by
    decide
  have hg := getLeafNodes_eq pathTree rfl (by decide) 16 []
  rw [hp] at hg
  refine ⟨_, _, hg, hp, ?_⟩
  have hsz := leafVolume_size pathTree (configured_treeOf _ 17)
    [7, 0, 0, 0, 0, 0, 0, 0, 0, 0, 0, 0, 0, 0, 0, 0] (by decide)
  exact hsz.trans (by simp)

/-! ## Order of the output -/

theorem getLeafNodesRecurs_append (t : AbstractOcTree α) (n : NodePtr α) (depth md : Nat)
    (pc : point3d) (out : List OcTreeVolume) :
    getLeafNodesRecurs t n depth md pc out = out ++ getLeafNodesRecurs t n depth md pc [] := by
  by_cases hle : depth ≤ md
  · rw [getLeafNodesRecurs_eq t md n depth pc out hle, getLeafNodesRecurs_eq t md n depth pc [] hle]
    simp
  · cases n with
    | null => simp [getLeafNodesRecurs]
    | node d ch => simp [getLeafNodesRecurs, hle]

theorem getVoxelsRecurs_append (t : AbstractOcTree α) (n : NodePtr α) (depth md : Nat)
    (pc : point3d) (out : List OcTreeVolume) :
    getVoxelsRecurs t n depth md pc out = out ++ getVoxelsRecurs t n depth md pc [] := by
  by_cases hle : depth ≤ md
  · rw [getVoxelsRecurs_eq t md n depth pc out hle, getVoxelsRecurs_eq t md n depth pc [] hle]
    simp
  · cases n with
    | null => simp [getVoxelsRecurs]
    | node d ch => simp [getVoxelsRecurs, hle]

theorem recursDepths_le (md : Nat) (n : NodePtr α) :
    ∀ depth : Nat, depth ≤ md → ∀ x ∈ recursDepths n depth md, depth ≤ x ∧ x ≤ md := by
  induction n with
  | null =>
    intro depth hle x hx
    simp only [recursDepths, List.mem_singleton] at hx
    omega
  | node d ch ih =>
    intro depth hle x hx
    rw [recursDepths, List.mem_cons] at hx
    rcases hx with rfl | hx
    · exact ⟨Nat.le_refl _, hle⟩
    · rw [if_pos hle] at hx
      by_cases hc : (NodePtr.node d ch).hasChildren = true ∧ depth ≠ md
      · rw [if_pos hc, List.mem_flatMap] at hx
        obtain ⟨i, _, hxi⟩ := hx
        by_cases hi : (NodePtr.node d ch).childExists i.val = true
        · rw [if_pos hi] at hxi
          have := ih i (depth + 1) (by omega) x hxi
          omega
        · rw [if_neg hi] at hxi
          cases hxi
      · rw [if_neg hc] at hx
        cases hx

/-- C13: at every branch node that `getLeafNodesRecurs` or `getVoxelsRecurs`
visits above `max_depth`, the output is the list passed in followed by the
concatenation, for the child indices `0, 1, ..., 7` in that order, of the
outputs for the slots: the output of the recursive call for a populated slot,
and for an empty slot nothing (`getLeafNodes`) or the one volume pushed for it
(`getVoxels`). Hence every volume for slot `i` precedes every volume for slot
`j` when `i < j`. The `depth` of every invocation stays within `max_depth`. -/
theorem extraction_order (t : AbstractOcTree α) (d : α) (ch : Fin 8 → NodePtr α)
    (depth max_depth : Nat) (pc : point3d) (out : List OcTreeVolume)
    (hb : (NodePtr.node d ch).hasChildren = true) (hlt : depth < max_depth) :
    getLeafNodesRecurs t (NodePtr.node d ch) depth max_depth pc out =
        out ++ ([0, 1, 2, 3, 4, 5, 6, 7] : List (Fin 8)).flatMap (fun i =>
          if (NodePtr.node d ch).childExists i.val then
            getLeafNodesRecurs t (ch i) (depth + 1) max_depth
              (searchCenter pc (t.tree_center.get 0 / 2 ^ (depth + 1)) i.val) []
          else []) ∧
      getVoxelsRecurs t (NodePtr.node d ch) depth max_depth pc out =
        out ++ ([0, 1, 2, 3, 4, 5, 6, 7] : List (Fin 8)).flatMap (fun i =>
          if (NodePtr.node d ch).childExists i.val then
            getVoxelsRecurs t (ch i) (depth + 1) max_depth
              (searchCenter pc (t.tree_center.get 0 / 2 ^ (depth + 1)) i.val) []
          else [(pc.sub t.tree_center, t.resolution * 2 ^ unsignedSub t.tree_depth depth)]) ∧
      (∀ x ∈ recursDepths (NodePtr.node d ch) depth max_depth, depth ≤ x ∧ x ≤ max_depth) := by
  have hle : depth ≤ max_depth := Nat.le_of_lt hlt
  have hc : (NodePtr.node d ch).hasChildren = true ∧ depth ≠ max_depth := ⟨hb, Nat.ne_of_lt hlt⟩
  refine ⟨?_, ?_, recursDepths_le max_depth _ depth hle⟩
  · rw [getLeafNodesRecurs, if_pos hle, if_pos hc]
    apply foldl_eq_flatMap
    intro acc i
    by_cases hi : (NodePtr.node d ch).childExists i.val = true
    · rw [if_pos hi, if_pos hi]
      exact getLeafNodesRecurs_append t _ _ _ _ acc
    · rw [if_neg hi, if_neg hi]
      simp
  · rw [getVoxelsRecurs, if_pos hle, if_pos hc]
    apply foldl_eq_flatMap
    intro acc i
    by_cases hi : (NodePtr.node d ch).childExists i.val = true
    · rw [if_pos hi, if_pos hi]
      exact getVoxelsRecurs_append t _ _ _ _ acc
    · rw [if_neg hi, if_neg hi]

theorem extraction_order_witness :
    getLeafNodesRecurs oneLeafTree (NodePtr.node () fun j => if j = 3 then leafNode else NodePtr.null)
          0 1 oneLeafTree.tree_center [] =
        [] ++ ([0, 1, 2, 3, 4, 5, 6, 7] : List (Fin 8)).flatMap (fun i =>
          if (NodePtr.node () fun j => if j = 3 then leafNode else NodePtr.null).childExists i.val
          then
            getLeafNodesRecurs oneLeafTree ((fun j => if j = 3 then leafNode else NodePtr.null) i)
              (0 + 1) 1
              (searchCenter oneLeafTree.tree_center (oneLeafTree.tree_center.get 0 / 2 ^ (0 + 1))
                i.val) []
          else []) ∧
      getVoxelsRecurs oneLeafTree (NodePtr.node () fun j => if j = 3 then leafNode else NodePtr.null)
          0 1 oneLeafTree.tree_center [] =
        [] ++ ([0, 1, 2, 3, 4, 5, 6, 7] : List (Fin 8)).flatMap (fun i =>
          if (NodePtr.node () fun j => if j = 3 then leafNode else NodePtr.null).childExists i.val
          then
            getVoxelsRecurs oneLeafTree ((fun j => if j = 3 then leafNode else NodePtr.null) i)
              (0 + 1) 1
              (searchCenter oneLeafTree.tree_center (oneLeafTree.tree_center.get 0 / 2 ^ (0 + 1))
                i.val) []
          else [(oneLeafTree.tree_center.sub oneLeafTree.tree_center,
            oneLeafTree.resolution * 2 ^ unsignedSub oneLeafTree.tree_depth 0)]) ∧
      (∀ x ∈ recursDepths (NodePtr.node () fun j => if j = 3 then leafNode else NodePtr.null) 0 1,
        0 ≤ x ∧ x ≤ 1) :=
  extraction_order oneLeafTree () (fun j => if j = 3 then leafNode else NodePtr.null) 0 1
    oneLeafTree.tree_center [] (by decide) (by decide)

/-! ## Resolution -/

/-- C14: after `setResolution(r)` with `r > 0`, `getResolution()` is `r`,
`resolution_factor` is `1 / r` and `tree_center` is `32768 * r` on all three
axes; the root pointer with every node below it, `size()`, `tree_depth` and
`tree_max_val` are unchanged. -/
theorem setResolution_frame (t : AbstractOcTree α) (hm : t.tree_max_val = 32768) (r : ℚ)
    (_hr : 0 < r) :
    (t.setResolution r).getResolution = r ∧
      (t.setResolution r).resolution_factor = 1 / r ∧
      (t.setResolution r).tree_center = ⟨32768 * r, 32768 * r, 32768 * r⟩ ∧
      (t.setResolution r).itsRoot = t.itsRoot ∧
      (t.setResolution r).size = t.size ∧
      (t.setResolution r).tree_depth = t.tree_depth ∧
      (t.setResolution r).tree_max_val = t.tree_max_val := by
  have hc : (t.tree_max_val : ℚ) / (1 / r) = 32768 * r := by
    rw [hm]
    field_simp
  refine ⟨rfl, rfl, ?_, rfl, rfl, rfl, rfl⟩
  show (⟨(t.tree_max_val : ℚ) / (1 / r), (t.tree_max_val : ℚ) / (1 / r),
    (t.tree_max_val : ℚ) / (1 / r)⟩ : point3d) = _
  rw [hc]

theorem setResolution_frame_witness :
    (oneLeafTree.setResolution (1 / 100)).getResolution = 1 / 100 ∧
      (oneLeafTree.setResolution (1 / 100)).resolution_factor = 1 / (1 / 100) ∧
      (oneLeafTree.setResolution (1 / 100)).tree_center =
        ⟨32768 * (1 / 100), 32768 * (1 / 100), 32768 * (1 / 100)⟩ ∧
      (oneLeafTree.setResolution (1 / 100)).itsRoot = oneLeafTree.itsRoot ∧
      (oneLeafTree.setResolution (1 / 100)).size = oneLeafTree.size ∧
      (oneLeafTree.setResolution (1 / 100)).tree_depth = oneLeafTree.tree_depth ∧
      (oneLeafTree.setResolution (1 / 100)).tree_max_val = oneLeafTree.tree_max_val :=
  setResolution_frame oneLeafTree rfl (1 / 100) (by norm_num)

/-! ## Log-odds of the occupancy node -/

theorem updateLogOdds_clamped (ln : ℚ → ℚ) (n : OcTreeNode) (p : ℚ) :
    CLAMPING_THRES_MIN ≤ (n.updateLogOdds ln p).log_odds_occupancy ∧
      (n.updateLogOdds ln p).log_odds_occupancy ≤ CLAMPING_THRES_MAX := by
  simp only [OcTreeNode.updateLogOdds]
  have hmm : CLAMPING_THRES_MIN ≤ CLAMPING_THRES_MAX := by
    norm_num [CLAMPING_THRES_MIN, CLAMPING_THRES_MAX]
  split_ifs with h1 h2
  · exact ⟨le_refl _, hmm⟩
  · exact ⟨hmm, le_refl _⟩
  · exact ⟨not_lt.1 h1, not_lt.1 h2⟩

theorem integrate_clamped (ln : ℚ → ℚ) (calls : List Bool) :
    ∀ n : OcTreeNode,
      CLAMPING_THRES_MIN ≤ n.log_odds_occupancy ∧ n.log_odds_occupancy ≤ CLAMPING_THRES_MAX →
      CLAMPING_THRES_MIN ≤ (OcTreeNode.integrate ln n calls).log_odds_occupancy ∧
        (OcTreeNode.integrate ln n calls).log_odds_occupancy ≤ CLAMPING_THRES_MAX := by
  induction calls with
  | nil => intro n h; exact h
  | cons c calls ih =>
    intro n _
    cases c with
    | true => exact ih _ (updateLogOdds_clamped ln n PROB_HIT)
    | false => exact ih _ (updateLogOdds_clamped ln n PROB_MISS)

/-- C15: starting from a node whose `log_odds` lies in `[-2.0, 3.5]`, after
any finite sequence of `integrateHit()` and `integrateMiss()` calls (any
number of hits alone or of misses alone included) the `log_odds` still lies in
`[-2.0, 3.5]`; a hit adds `log(0.7 / 0.3)`, a miss adds `log(0.4 / 0.6)`, and
the sum is then clamped. -/
theorem log_odds_clamping (ln : ℚ → ℚ) (n : OcTreeNode)
    (h0 : -2 ≤ n.log_odds_occupancy ∧ n.log_odds_occupancy ≤ 7 / 2) :
    (∀ calls : List Bool,
        -2 ≤ (OcTreeNode.integrate ln n calls).log_odds_occupancy ∧
          (OcTreeNode.integrate ln n calls).log_odds_occupancy ≤ 7 / 2) ∧
      (∀ k : Nat, 50 ≤ k →
        (OcTreeNode.integrate ln n (List.replicate k true)).log_odds_occupancy ≤ 7 / 2) ∧
      (∀ k : Nat, 50 ≤ k →
        -2 ≤ (OcTreeNode.integrate ln n (List.replicate k false)).log_odds_occupancy) ∧
      (n.integrateHit ln).log_odds_occupancy =
        max (-2) (min (7 / 2) (n.log_odds_occupancy + ln ((7 / 10) / (1 - 7 / 10)))) ∧
      (n.integrateMiss ln).log_odds_occupancy =
        max (-2) (min (7 / 2) (n.log_odds_occupancy + ln ((4 / 10) / (1 - 4 / 10)))) := by
  have hall := fun calls => integrate_clamped ln calls n h0
  simp only [CLAMPING_THRES_MIN, CLAMPING_THRES_MAX] at hall
  have hclamp : ∀ l : ℚ,
      (if l < -2 then (-2 : ℚ) else if l > 7 / 2 then 7 / 2 else l) = max (-2) (min (7 / 2) l) := by
    intro l
    split_ifs with h1 h2
    · rw [max_eq_left]
      exact le_trans (min_le_right _ _) h1.le
    · rw [min_eq_left h2.le, max_eq_right]
      norm_num
    · rw [min_eq_right (not_lt.1 h2), max_eq_right (not_lt.1 h1)]
  refine ⟨hall, fun k _ => (hall _).2, fun k _ => (hall _).1, ?_, ?_⟩
  · simp only [OcTreeNode.integrateHit, OcTreeNode.updateLogOdds, OcTreeNode.logodds, PROB_HIT,
      CLAMPING_THRES_MIN, CLAMPING_THRES_MAX]
    exact hclamp _
  · simp only [OcTreeNode.integrateMiss, OcTreeNode.updateLogOdds, OcTreeNode.logodds, PROB_MISS,
      CLAMPING_THRES_MIN, CLAMPING_THRES_MAX]
    exact hclamp _

theorem log_odds_clamping_witness :
    (∀ calls : List Bool,
        -2 ≤ (OcTreeNode.integrate (fun x => x - 1) ⟨0, 0⟩ calls).log_odds_occupancy ∧
          (OcTreeNode.integrate (fun x => x - 1) ⟨0, 0⟩ calls).log_odds_occupancy ≤ 7 / 2) ∧
      (OcTreeNode.integrate (fun x => x - 1) ⟨0, 0⟩ (List.replicate 3 true)).log_odds_occupancy
        = 7 / 2 :=
  ⟨(log_odds_clamping (fun x => x - 1) ⟨0, 0⟩ (by norm_num)).1, by
    norm_num [OcTreeNode.integrate, OcTreeNode.integrateHit, OcTreeNode.updateLogOdds,
      OcTreeNode.logodds, PROB_HIT, CLAMPING_THRES_MIN, CLAMPING_THRES_MAX, List.replicate]⟩

/-! ## Range of the keys -/

theorem genKey_isSome_iff (t : AbstractOcTree α) (h : Configured t) (hr : 0 < t.resolution)
    (v : ℚ) :
    (genKey t v).isSome = true ↔ -32767 * t.resolution ≤ v ∧ v < 32768 * t.resolution := by
  have hf : t.resolution_factor * v = v / t.resolution := by
    rw [h.factor, one_div, inv_mul_eq_div]
  have hlo : (0 < ⌊v / t.resolution⌋ + 32768) ↔ -32767 * t.resolution ≤ v := by
    have h1 : (0 < ⌊v / t.resolution⌋ + 32768) ↔ (-32767 : Int) ≤ ⌊v / t.resolution⌋ := by omega
    rw [h1, Int.le_floor, le_div_iff₀ hr]
    norm_num
  have hhi : (⌊v / t.resolution⌋ + 32768 < 65536) ↔ v < 32768 * t.resolution := by
    have h1 : (⌊v / t.resolution⌋ + 32768 < 65536) ↔ ⌊v / t.resolution⌋ < (32768 : Int) := by omega
    rw [h1, Int.floor_lt, div_lt_iff₀ hr]
    norm_num
  rw [genKey_eq t h.max_val, hf, ← hlo, ← hhi]
  by_cases hc : 0 < ⌊v / t.resolution⌋ + 32768 ∧ ⌊v / t.resolution⌋ + 32768 < 65536
  · rw [if_pos hc]
    simp [hc]
  · rw [if_neg hc]
    simp [hc]

theorem genKey_cell (t : AbstractOcTree α) (h : Configured t) (hr : 0 < t.resolution)
    (z : Int) (f : ℚ) (hf0 : 0 ≤ f) (hf1 : f < 1) (h0 : 0 < z + 32768) (h1 : z + 32768 < 65536) :
    genKey t (((z : ℚ) + f) * t.resolution) = some (z + 32768).toNat := by
  have hfl : ⌊((z : ℚ) + f) * t.resolution / t.resolution⌋ = z := by
    rw [mul_div_cancel_right₀ _ hr.ne.symm, Int.floor_eq_iff]
    constructor <;> linarith
  have hfac : t.resolution_factor * (((z : ℚ) + f) * t.resolution) =
      ((z : ℚ) + f) * t.resolution / t.resolution := by
    rw [h.factor, one_div, inv_mul_eq_div]
  rw [genKey_eq t h.max_val, hfac, hfl, if_pos ⟨h0, h1⟩]

theorem genVal_snd (t : AbstractOcTree α) (hm : t.tree_max_val = 32768) (k : Nat)
    (hk : k ≤ 65535) :
    (genVal t k).2 = ((((k : Int) - 32768 : Int) : ℚ) + 1 / 2) * t.resolution := by
  rw [genVal_eq t hm, if_neg (by omega)]
  push_cast
  ring

theorem genKey_genVal (t : AbstractOcTree α) (h : Configured t) (hr : 0 < t.resolution)
    (k : Nat) (hk1 : 1 ≤ k) (hk2 : k ≤ 65535) :
    genKey t (genVal t k).2 = some k := by
  rw [genVal_snd t h.max_val k hk2,
    genKey_cell t h hr ((k : Int) - 32768) (1 / 2) (by norm_num) (by norm_num) (by omega)
      (by omega)]
  congr 1
  omega

/-- C17: for a resolution `r > 0` and a key `k` with `1 ≤ k ≤ 65535`,
`genKey(genVal(k))` succeeds and returns `k`. Hence for a representable `v`
with key `k` the value `genVal(k)` has the key `k` again and decodes to
itself, and two representable values have the same key if and only if their
keys decode to the same cell centre. -/
theorem cell_centre_reencodes (t : AbstractOcTree α) (h : Configured t)
    (hr : 0 < t.resolution) :
    (∀ k : Nat, 1 ≤ k → k ≤ 65535 → genKey t (genVal t k).2 = some k) ∧
      (∀ (v : ℚ) (k : Nat), genKey t v = some k →
        ∃ k2 : Nat, genKey t (genVal t k).2 = some k2 ∧ genVal t k2 = genVal t k) ∧
      (∀ (v w : ℚ) (kv kw : Nat), genKey t v = some kv → genKey t w = some kw →
        (kv = kw ↔ (genVal t kv).2 = (genVal t kw).2)) := by
  have hrange : ∀ (v : ℚ) (k : Nat), genKey t v = some k → 1 ≤ k ∧ k ≤ 65535 := by
    intro v k hk
    have := (genKey_some_iff t h v k).1 hk
    omega
  refine ⟨genKey_genVal t h hr, ?_, ?_⟩
  · intro v k hk
    obtain ⟨h1, h2⟩ := hrange v k hk
    exact ⟨k, genKey_genVal t h hr k h1 h2, rfl⟩
  · intro v w kv kw hv hw
    obtain ⟨_, hv2⟩ := hrange v kv hv
    obtain ⟨_, hw2⟩ := hrange w kw hw
    constructor
    · rintro rfl
      rfl
    · intro heq
      rw [genVal_snd t h.max_val kv hv2, genVal_snd t h.max_val kw hw2] at heq
      have h3 := mul_right_cancel₀ hr.ne.symm heq
      have h4 : (((kv : Int) - 32768 : Int) : ℚ) = (((kw : Int) - 32768 : Int) : ℚ) := by
        linarith
      have h5 := Int.cast_injective h4
      omega

theorem cell_centre_reencodes_witness :
    (∀ k : Nat, 1 ≤ k → k ≤ 65535 → genKey oneLeafTree (genVal oneLeafTree k).2 = some k) ∧
      genKey oneLeafTree (genVal oneLeafTree 1).2 = some 1 ∧
      (genVal oneLeafTree 1).2 = -65533 / 2 :=
  ⟨(cell_centre_reencodes oneLeafTree (configured_treeOf _ 2) (by decide)).1,
    (cell_centre_reencodes oneLeafTree (configured_treeOf _ 2) (by decide)).1 1 (by decide)
      (by decide),
    by
      rw [genVal_eq oneLeafTree rfl, if_neg (by decide)]
      show ((1 : Nat) - 32768 + 1 / 2 : ℚ) * 1 = -65533 / 2
      norm_num⟩

/-! ## Nodes returned by a search -/

theorem withinDepth_reaches (p : List Nat) :
    ∀ (n : NodePtr α) (k : Nat), withinDepth n k = true → reaches n p →
      p.length ≤ k ∧ (p.length = k → (n.follow p).hasChildren = false) := by
  induction p with
  | nil =>
    intro n k hw hr
    refine ⟨Nat.zero_le k, ?_⟩
    intro hk
    cases n with
    | null => exact absurd hr isNull_null_ne
    | node d ch =>
      have hk0 : k = 0 := by simpa using hk.symm
      subst hk0
      simpa [withinDepth] using hw
  | cons i q ih =>
    intro n k hw hr
    obtain ⟨hs, hrq⟩ := reaches_cons n i q hr
    have hlt := slot_lt n i hs
    cases n with
    | null => exact absurd hs isNull_null_ne
    | node d ch =>
      have hslot : (NodePtr.node d ch).slot i = ch ⟨i, hlt⟩ := by
        simp [NodePtr.slot, hlt]
      cases k with
      | zero =>
        have hh := hasChildren_of_slot _ i hs
        simp [withinDepth, hh] at hw
      | succ k =>
        rw [withinDepth, List.all_eq_true] at hw
        have hwi := hw ⟨i, hlt⟩ (mem_fin8 _)
        rw [hslot] at hrq
        obtain ⟨h1, h2⟩ := ih (ch ⟨i, hlt⟩) k hwi hrq
        refine ⟨by simp only [List.length_cons]; omega, ?_⟩
        intro hk
        simp only [NodePtr.follow, hslot]
        exact h2 (by simp only [List.length_cons] at hk; omega)

theorem searchLoop_success (key : Nat × Nat × Nat) :
    ∀ (m : Nat) (cur n : NodePtr α), cur.isNull = false →
      searchLoop key m cur = some (true, n) →
      n.isNull = false ∧
        (n.hasChildren = false ∨
          (reaches cur (keyPath key 0 m) ∧ n = cur.follow (keyPath key 0 m))) := by
  intro m
  induction m with
  | zero =>
    intro cur n hcur hs
    rw [searchLoop] at hs
    have hn : cur = n := (Prod.mk.inj (Option.some.inj hs)).2
    subst hn
    exact ⟨hcur, Or.inr ⟨hcur, rfl⟩⟩
  | succ m ih =>
    intro cur n hcur hs
    cases cur with
    | null => exact absurd hcur isNull_null_ne
    | node d ch =>
      rw [searchLoop] at hs
      by_cases hex : (NodePtr.node d ch).childExists (genPos key m) = true
      · rw [if_pos hex] at hs
        have hchild : ((NodePtr.node d ch).getChild (genPos key m)).isNull = false := by
          simpa [NodePtr.childExists, NodePtr.getChild] using hex
        obtain ⟨h1, h2⟩ := ih _ n hchild hs
        refine ⟨h1, ?_⟩
        rcases h2 with h2 | ⟨h2, h3⟩
        · exact Or.inl h2
        · refine Or.inr ⟨?_, ?_⟩
          · unfold reaches
            rw [keyPath, Nat.zero_add, NodePtr.follow]
            exact h2
          · rw [keyPath, Nat.zero_add, NodePtr.follow]
            exact h3
      · rw [if_neg hex] at hs
        by_cases hh : (NodePtr.node d ch).hasChildren = true
        · simp [hh] at hs
        · have hh2 : (NodePtr.node d ch).hasChildren = false := by simpa using hh
          simp only [hh2, Bool.not_false, if_true] at hs
          have hn : NodePtr.node d ch = n := (Prod.mk.inj (Option.some.inj hs)).2
          subst hn
          exact ⟨rfl, Or.inl hh2⟩

theorem childExists_of_childless (n : NodePtr α) (h : n.hasChildren = false) (i : Nat) :
    n.childExists i = false := by
  cases hc : n.childExists i with
  | false => rfl
  | true =>
    have hs : (n.slot i).isNull = false := by
      simpa [NodePtr.childExists] using hc
    rw [hasChildren_of_slot n i hs] at h
    cases h

/-- C20: in a tree whose root exists and has no children, `search(P)` returns
true with `result` the root for every point whose three coordinates are
representable, and false with `result = NULL` for every other point. In any
tree whose nodes all lie at depth `≤ 16`, a node returned by a successful
search is childless. -/
theorem search_root_only (t : AbstractOcTree α) (h : Configured t) :
    (t.itsRoot.isNull = false → t.itsRoot.hasChildren = false → ∀ P : point3d,
        (((genKey t (P.get 0)).isSome = true ∧ (genKey t (P.get 1)).isSome = true ∧
            (genKey t (P.get 2)).isSome = true) →
          search t P = some (true, t.itsRoot)) ∧
        (¬((genKey t (P.get 0)).isSome = true ∧ (genKey t (P.get 1)).isSome = true ∧
            (genKey t (P.get 2)).isSome = true) →
          search t P = some (false, NodePtr.null))) ∧
      (withinDepth t.itsRoot 16 = true → ∀ (P : point3d) (n : NodePtr α),
        search t P = some (true, n) → n.isNull = false ∧ n.hasChildren = false) := by
  constructor
  · intro hroot hleaf P
    constructor
    · rintro ⟨hx, hy, hz⟩
      obtain ⟨kx, hkx⟩ := Option.isSome_iff_exists.1 hx
      obtain ⟨ky, hky⟩ := Option.isSome_iff_exists.1 hy
      obtain ⟨kz, hkz⟩ := Option.isSome_iff_exists.1 hz
      rw [search_eq_loop t h.depth P kx ky kz hkx hky hkz,
        searchLoop_absent (kx, ky, kz) 15 t.itsRoot hroot
          (childExists_of_childless _ hleaf _), hleaf]
      rfl
    · intro hnot
      apply search_out_of_range_aux
      by_contra hall
      apply hnot
      refine ⟨?_, ?_, ?_⟩
      · cases hk : genKey t (P.get 0) with
        | none => exact absurd (Or.inl hk) hall
        | some k => rfl
      · cases hk : genKey t (P.get 1) with
        | none => exact absurd (Or.inr (Or.inl hk)) hall
        | some k => rfl
      · cases hk : genKey t (P.get 2) with
        | none => exact absurd (Or.inr (Or.inr hk)) hall
        | some k => rfl
  · intro hw P n hs
    cases hx : genKey t (P.get 0) with
    | none =>
      rw [search_out_of_range_aux t P (Or.inl hx)] at hs
      cases hs
    | some kx =>
      cases hy : genKey t (P.get 1) with
      | none =>
        rw [search_out_of_range_aux t P (Or.inr (Or.inl hy))] at hs
        cases hs
      | some ky =>
        cases hz : genKey t (P.get 2) with
        | none =>
          rw [search_out_of_range_aux t P (Or.inr (Or.inr hz))] at hs
          cases hs
        | some kz =>
          rw [search_eq_loop t h.depth P kx ky kz hx hy hz] at hs
          have hroot : t.itsRoot.isNull = false := by
            cases hr : t.itsRoot with
            | null =>
              rw [hr, searchLoop] at hs
              cases hs
            | node d ch => rfl
          obtain ⟨h1, h2⟩ := searchLoop_success (kx, ky, kz) 16 t.itsRoot n hroot hs
          refine ⟨h1, ?_⟩
          rcases h2 with h2 | ⟨h2, h3⟩
          · exact h2
          · have hlen : (keyPath (kx, ky, kz) 0 16).length = 16 := rfl
            rw [h3]
            exact (withinDepth_reaches _ t.itsRoot 16 hw h2).2 hlen

theorem search_root_only_witness :
    search rootOnlyTree ⟨0, 0, 0⟩ = some (true, rootOnlyTree.itsRoot) ∧
      search rootOnlyTree ⟨40000, 0, 0⟩ = some (false, NodePtr.null) ∧
      withinDepth pathTree.itsRoot 16 = true := by
  have h0 : (genKey rootOnlyTree 0).isSome = true := by
    have hk : genKey rootOnlyTree 0 = some 32768 := genKey_treeOf _ 1 0 0 (by norm_num)
    rw [hk]
    rfl
  have h4 : ¬ (genKey rootOnlyTree 40000).isSome = true := by
    have hk : genKey rootOnlyTree 40000 = none := genKey_treeOf _ 1 40000 40000 (by norm_num)
    rw [hk]
    decide
  have hw := (search_root_only rootOnlyTree (configured_treeOf _ 1)).1 rfl (by decide)
  refine ⟨(hw ⟨0, 0, 0⟩).1 ⟨h0, h0, h0⟩, (hw ⟨40000, 0, 0⟩).2 ?_, by decide⟩
  rintro ⟨hx, _, _⟩
  exact h4 hx

/-! ## What the voxel extraction reports -/

/-- C19, as amended: `getVoxels(max_depth)` appends exactly one volume per
absent child slot of each node that has at least one child and lies at a
depth `d < max_depth` on an existing path from the root, and nothing else
(`voxelSlots` lists these slots without repetition); that volume carries the
branch node's own centre, and when `d ≤ 16` its size is
`resolution * 2^(16 - d)`. No volume is emitted for a childless node: a
root-only tree and `max_depth = 0` both leave the output as it was. -/
theorem getVoxels_reports (t : AbstractOcTree α) (h : Configured t) (_hr : 0 < t.resolution)
    (hroot : t.itsRoot.isNull = false) (max_depth : Nat) (voxels : List OcTreeVolume) :
    (∃ vols : List OcTreeVolume,
        getVoxels t max_depth voxels = some (voxels ++ vols) ∧
        vols.length = (voxelSlots t.itsRoot max_depth).length ∧
        ∀ (i : Nat) (s : List Nat × Nat) (v : OcTreeVolume),
          (voxelSlots t.itsRoot max_depth)[i]? = some s → vols[i]? = some v →
            v.1 = ⟨specCentre t.resolution 0 s.1, specCentre t.resolution 1 s.1,
              specCentre t.resolution 2 s.1⟩ ∧
            (s.1.length ≤ 16 → v.2 = t.resolution * 2 ^ (16 - s.1.length))) ∧
      (voxelSlots t.itsRoot max_depth).Nodup ∧
      (∀ s : List Nat × Nat, s ∈ voxelSlots t.itsRoot max_depth ↔
        (reaches t.itsRoot s.1 ∧ (t.itsRoot.follow s.1).hasChildren = true ∧
          s.1.length < max_depth ∧ s.2 < 8 ∧ (t.itsRoot.follow s.1).childExists s.2 = false)) ∧
      (t.itsRoot.hasChildren = false → getVoxels t max_depth voxels = some voxels) ∧
      getVoxels t 0 voxels = some voxels := by
  refine ⟨⟨_, getVoxels_eq t hroot max_depth voxels, List.length_map _ _, ?_⟩,
    nodup_voxelSlots t.itsRoot max_depth, mem_voxelSlots t.itsRoot max_depth, ?_, ?_⟩
  · intro i s v hs hv
    rw [List.getElem?_map, hs] at hv
    have hv2 : leafVolume t t.tree_center 0 s.1 = v := Option.some.inj hv
    subst hv2
    have hx := leafVolume_centre t h 0 (by decide) s.1
    have hy := leafVolume_centre t h 1 (by decide) s.1
    have hz := leafVolume_centre t h 2 (by decide) s.1
    refine ⟨?_, leafVolume_size t h s.1⟩
    cases hq : (leafVolume t t.tree_center 0 s.1).1 with
    | mk qx qy qz =>
      rw [hq] at hx hy hz
      simp only [point3d.get] at hx hy hz
      rw [hx, hy, hz]
  · intro hleaf
    rw [getVoxels_eq t hroot, voxelSlots_childless _ hleaf]
    simp
  · rw [getVoxels_eq t hroot, voxelSlots_zero]
    simp

theorem getVoxels_reports_witness :
    voxelSlots oneLeafTree.itsRoot 1 =
        [([], 0), ([], 1), ([], 2), ([], 4), ([], 5), ([], 6), ([], 7)] ∧
      (∃ vols : List OcTreeVolume,
        getVoxels oneLeafTree 1 [] = some ([] ++ vols) ∧
        vols.length = (voxelSlots oneLeafTree.itsRoot 1).length ∧
        ∀ (i : Nat) (s : List Nat × Nat) (v : OcTreeVolume),
          (voxelSlots oneLeafTree.itsRoot 1)[i]? = some s → vols[i]? = some v →
            v.1 = ⟨specCentre oneLeafTree.resolution 0 s.1, specCentre oneLeafTree.resolution 1 s.1,
              specCentre oneLeafTree.resolution 2 s.1⟩ ∧
            (s.1.length ≤ 16 → v.2 = oneLeafTree.resolution * 2 ^ (16 - s.1.length))) :=
  ⟨by decide,
    (getVoxels_reports oneLeafTree (configured_treeOf _ 2) (by decide) rfl 1 []).1⟩

set_option maxRecDepth 100000 in
/-- C19 as first stated fails below the depth of the tree: in `deeperTree`
the node at depth `d = 17`, reached through seventeen child indices 0, has a
child, and the volume `getVoxels(18)` emits for its absent slot 1 does not
have the size `resolution * 2^(16 - 17)`: the exponent `tree_depth - depth` is
computed in `unsigned int`, so the size is at least the resolution. -/
theorem getVoxels_size_beyond_depth :
    ∃ (vols : List OcTreeVolume) (v : OcTreeVolume),
      getVoxels deeperTree 18 [] = some vols ∧
      (voxelSlots deeperTree.itsRoot 18)[0]? = some (List.replicate 17 0, 1) ∧
      vols[0]? = some v ∧
      v.2 ≠ deeperTree.resolution * (2 : ℚ) ^ ((16 : Int) - 17) ∧
      deeperTree.resolution ≤ v.2 := by
  have hs : (voxelSlots deeperTree.itsRoot 18)[0]? = some (List.replicate 17 0, 1) := by
    decide
  have hg := getVoxels_eq deeperTree rfl 18 []
  obtain ⟨n, hn⟩ : ∃ n : Nat,
      (leafVolume deeperTree deeperTree.tree_center 0 (List.replicate 17 0)).2 =
        deeperTree.resolution * 2 ^ n := ⟨_, rfl⟩
  have hr : deeperTree.resolution = 1 := rfl
  have hpow : (1 : ℚ) ≤ 2 ^ n := one_le_pow₀ (by norm_num)
  have hhalf : (2 : ℚ) ^ ((16 : Int) - 17) = 1 / 2 := by norm_num
  refine ⟨_, leafVolume deeperTree deeperTree.tree_center 0 (List.replicate 17 0), hg, hs, ?_,
    ?_, ?_⟩
  · rw [List.nil_append, List.getElem?_map, hs]
    rfl
  · rw [hn, hr, hhalf]
    intro hcontra
    linarith
  · rw [hn, hr]
    linarith

/-! ## Extraction and search on the same cell -/

theorem roundDouble_of (q : ℚ) (k n : Int) (h1 : (2 : ℚ) ^ k ≤ |q|)
    (h2 : |q| < (2 : ℚ) ^ (k + 1)) (hlo : (n : ℚ) - 1 / 2 < q / 2 ^ (k - 52))
    (hhi : q / 2 ^ (k - 52) < (n : ℚ) + 1 / 2) :
    roundDouble q = (n : ℚ) * 2 ^ (k - 52) := by
  have hpos : (0 : ℚ) < |q| := lt_of_lt_of_le (zpow_pos (by norm_num) k) h1
  have hq0 : q ≠ 0 := abs_pos.1 hpos
  have hlog : Int.log 2 |q| = k := by
    apply le_antisymm
    · have := (Int.lt_zpow_iff_log_lt (b := 2) (by decide) hpos).1 (by exact_mod_cast h2)
      omega
    · exact (Int.zpow_le_iff_le_log (b := 2) (by decide) hpos).1 (by exact_mod_cast h1)
  unfold roundDouble
  rw [if_neg hq0]
  simp only [hlog]
  congr 1
  by_cases hm : (n : ℚ) ≤ q / 2 ^ (k - 52)
  · have hf : ⌊q / 2 ^ (k - 52)⌋ = n := Int.floor_eq_iff.2 ⟨hm, by linarith⟩
    rw [hf, if_pos (by linarith)]
  · have hm2 : q / 2 ^ (k - 52) < (n : ℚ) := not_le.1 hm
    have hf : ⌊q / 2 ^ (k - 52)⌋ = n - 1 :=
      Int.floor_eq_iff.2 ⟨by push_cast; linarith, by push_cast; linarith⟩
    rw [hf, if_neg (by push_cast; linarith), if_pos (by push_cast; linarith)]
    push_cast
    ring

theorem tenthTree_factor : tenthTree.resolution_factor = 10 := by
  show doubleDiv 1 tenth = 10
  unfold doubleDiv tenth
  rw [roundDouble_of _ 3 5629499534213120 (by norm_num [abs_of_pos]) (by norm_num [abs_of_pos])
    (by norm_num) (by norm_num)]
  norm_num

theorem tenthTree_product : doubleMul tenthTree.resolution_factor threeTenths = 3 := by
  rw [tenthTree_factor]
  unfold doubleMul threeTenths
  rw [roundDouble_of _ 1 6755399441055744 (by norm_num [abs_of_pos]) (by norm_num [abs_of_pos])
    (by norm_num) (by norm_num)]
  norm_num

theorem tenthTree_quotient :
    doubleDiv threeTenths tenthTree.resolution = 6755399441055743 / 2251799813685248 := by
  show doubleDiv threeTenths tenth = _
  unfold doubleDiv threeTenths tenth
  rw [roundDouble_of _ 1 6755399441055743 (by norm_num [abs_of_pos]) (by norm_num [abs_of_pos])
    (by norm_num) (by norm_num)]
  norm_num

theorem eleventhTree_factor :
    eleventhTree.resolution_factor = 5117726849284655 / 562949953421312 := by
  show doubleDiv 1 elevenHundredths = _
  unfold doubleDiv elevenHundredths
  rw [roundDouble_of _ 3 5117726849284655 (by norm_num [abs_of_pos]) (by norm_num [abs_of_pos])
    (by norm_num) (by norm_num)]
  norm_num

theorem eleventhTree_product :
    doubleMul eleventhTree.resolution_factor insideLowerEnd =
      -9006924376834049 / 274877906944 := by
  rw [eleventhTree_factor]
  unfold doubleMul insideLowerEnd
  rw [roundDouble_of _ 14 (-9006924376834049) (by norm_num [abs_of_neg])
    (by norm_num [abs_of_neg]) (by norm_num) (by norm_num)]
  norm_num

theorem tenth_double : roundDouble tenth = tenth ∧ roundDouble threeTenths = threeTenths := by
  constructor
  · unfold tenth
    rw [roundDouble_of _ (-4) 7205759403792794 (by norm_num [abs_of_pos])
      (by norm_num [abs_of_pos]) (by norm_num) (by norm_num)]
    norm_num
  · unfold threeTenths
    rw [roundDouble_of _ (-2) 5404319552844595 (by norm_num [abs_of_pos])
      (by norm_num [abs_of_pos]) (by norm_num) (by norm_num)]
    norm_num

theorem eleventh_double :
    roundDouble elevenHundredths = elevenHundredths ∧
      roundDouble insideLowerEnd = insideLowerEnd := by
  constructor
  · unfold elevenHundredths
    rw [roundDouble_of _ (-4) 7926335344172073 (by norm_num [abs_of_pos])
      (by norm_num [abs_of_pos]) (by norm_num) (by norm_num)]
    norm_num
  · unfold insideLowerEnd
    rw [roundDouble_of _ 11 (-7926093451613962) (by norm_num [abs_of_neg])
      (by norm_num [abs_of_neg]) (by norm_num) (by norm_num)]
    norm_num

/-- C2, as amended: for a resolution `r > 0` and a value `v`, let `p` be the
product `resolution_factor * v` as `genKey` computes it in `double`
arithmetic and `s = floor(p) + 32768`. `genKey` returns true with `key = s`
when `0 < s < 65536` and returns false otherwise; `s = 0` and `s = 65536` are
rejected, and a key that is returned is never anything but `s`. When the
arithmetic is exact, `p = v / r` and `s = floor(v / r) + 32768`. -/
theorem genKeyWith_range (mul : ℚ → ℚ → ℚ) (t : AbstractOcTree α)
    (hm : t.tree_max_val = 32768) (_hr : 0 < t.resolution) (v : ℚ) :
    (0 < ⌊mul t.resolution_factor v⌋ + 32768 ∧ ⌊mul t.resolution_factor v⌋ + 32768 < 65536 →
        genKeyWith mul t v = some (⌊mul t.resolution_factor v⌋ + 32768).toNat) ∧
      (¬(0 < ⌊mul t.resolution_factor v⌋ + 32768 ∧
          ⌊mul t.resolution_factor v⌋ + 32768 < 65536) →
        genKeyWith mul t v = none) ∧
      (⌊mul t.resolution_factor v⌋ + 32768 = 0 → genKeyWith mul t v = none) ∧
      (⌊mul t.resolution_factor v⌋ + 32768 = 65536 → genKeyWith mul t v = none) ∧
      (∀ k : Nat, genKeyWith mul t v = some k → (k : Int) = ⌊mul t.resolution_factor v⌋ + 32768) ∧
      (Configured t →
        (0 < ⌊v / t.resolution⌋ + 32768 ∧ ⌊v / t.resolution⌋ + 32768 < 65536 →
          genKey t v = some (⌊v / t.resolution⌋ + 32768).toNat) ∧
        (¬(0 < ⌊v / t.resolution⌋ + 32768 ∧ ⌊v / t.resolution⌋ + 32768 < 65536) →
          genKey t v = none) ∧
        (∀ k : Nat, genKey t v = some k → (k : Int) = ⌊v / t.resolution⌋ + 32768)) := by
  have hno : ¬(0 < ⌊mul t.resolution_factor v⌋ + 32768 ∧
      ⌊mul t.resolution_factor v⌋ + 32768 < 65536) → genKeyWith mul t v = none := by
    intro hc
    rw [genKeyWith_eq mul t hm, if_neg hc]
  refine ⟨?_, hno, ?_, ?_, ?_, ?_⟩
  · intro hc
    rw [genKeyWith_eq mul t hm, if_pos hc]
  · intro h0
    exact hno (by omega)
  · intro h0
    exact hno (by omega)
  · intro k hk
    rw [genKeyWith_eq mul t hm] at hk
    by_cases hc : 0 < ⌊mul t.resolution_factor v⌋ + 32768 ∧
        ⌊mul t.resolution_factor v⌋ + 32768 < 65536
    · rw [if_pos hc] at hk
      have := Option.some.inj hk
      omega
    · rw [if_neg hc] at hk
      cases hk
  · intro h
    have hf : t.resolution_factor * v = v / t.resolution := by
      rw [h.factor, one_div, inv_mul_eq_div]
    refine ⟨?_, ?_, ?_⟩
    · intro hc
      rw [genKey_eq t hm, hf, if_pos hc]
    · intro hc
      rw [genKey_eq t hm, hf, if_neg hc]
    · intro k hk
      exact ((genKey_some_iff t h v k).1 hk).2

theorem genKeyWith_range_witness :
    (0 : ℚ) < tenthTree.resolution ∧
      ⌊doubleMul tenthTree.resolution_factor threeTenths⌋ + 32768 = 32771 ∧
      genKeyWith doubleMul tenthTree threeTenths = some 32771 := by
  have hr : (0 : ℚ) < tenthTree.resolution := by
    show (0 : ℚ) < tenth
    norm_num [tenth]
  have hs : ⌊doubleMul tenthTree.resolution_factor threeTenths⌋ + 32768 = 32771 := by
    rw [tenthTree_product]
    norm_num
  refine ⟨hr, hs, ?_⟩
  have h := (genKeyWith_range doubleMul tenthTree rfl hr threeTenths).1 (by rw [hs]; decide)
  rw [hs] at h
  exact h

/-- C2 as first stated fails in `double` arithmetic at `r = 0.1`, `v = 0.3`:
`floor(v / r) + 32768` is 32770, with the quotient taken exactly or as a
`double`, and it lies in the range, but `genKey` returns the key 32771,
because the stored factor `1. / r` is 10 and the product `10 * v` rounds
to 3. -/
theorem genKey_rounds_into_next_cell :
    roundDouble tenth = tenth ∧ roundDouble threeTenths = threeTenths ∧
      (0 : ℚ) < tenthTree.resolution ∧ tenthTree.resolution = tenth ∧
      tenthTree.resolution_factor = doubleDiv 1 tenthTree.resolution ∧
      ⌊threeTenths / tenthTree.resolution⌋ + 32768 = 32770 ∧
      ⌊doubleDiv threeTenths tenthTree.resolution⌋ + 32768 = 32770 ∧
      genKeyWith doubleMul tenthTree threeTenths = some 32771 := by
  refine ⟨tenth_double.1, tenth_double.2, ?_, rfl, rfl, ?_, ?_, ?_⟩
  · show (0 : ℚ) < tenth
    norm_num [tenth]
  · have hf : ⌊threeTenths / tenthTree.resolution⌋ = 2 := by
      show ⌊threeTenths / tenth⌋ = 2
      rw [Int.floor_eq_iff]
      norm_num [threeTenths, tenth]
    rw [hf]
    rfl
  · have hf : ⌊doubleDiv threeTenths tenthTree.resolution⌋ = 2 := by
      rw [tenthTree_quotient, Int.floor_eq_iff]
      norm_num
    rw [hf]
    rfl
  · rw [genKeyWith_eq doubleMul tenthTree rfl, tenthTree_product]
    have hf : ⌊(3 : ℚ)⌋ = 3 := by norm_num
    rw [hf]
    rfl

theorem genKey_keys (t : AbstractOcTree α) (h : Configured t) (hr : 0 < t.resolution) :
    ∀ k : Nat, (∃ v : ℚ, genKey t v = some k) ↔ 1 ≤ k ∧ k ≤ 65535 := by
  intro k
  constructor
  · rintro ⟨v, hv⟩
    have := (genKey_some_iff t h v k).1 hv
    omega
  · rintro ⟨hk1, hk2⟩
    refine ⟨(((k : Int) - 32768 : Int) + 0) * t.resolution, ?_⟩
    rw [genKey_cell t h hr ((k : Int) - 32768) 0 (le_refl _) (by norm_num) (by omega) (by omega)]
    congr 1
    omega

/-- C16, as amended: for a resolution `r > 0`, `genKey` succeeds on `v` if and
only if `-32767 ≤ p < 32768`, where `p` is the product `resolution_factor * v`
as `genKey` computes it in `double` arithmetic; every key it returns lies in
`1..65535`. When the arithmetic is exact (`p = v / r`), `genKey` succeeds on
`v` if and only if `-32767 * r ≤ v < 32768 * r`, every accepted value
satisfies `|v| < 2^15 * r`, and the keys returned are exactly `1, ..., 65535`,
which are 65535 keys. -/
theorem genKeyWith_addressable_range (mul : ℚ → ℚ → ℚ) (t : AbstractOcTree α)
    (hm : t.tree_max_val = 32768) (hr : 0 < t.resolution) :
    (∀ v : ℚ, (genKeyWith mul t v).isSome = true ↔
        -32767 ≤ mul t.resolution_factor v ∧ mul t.resolution_factor v < 32768) ∧
      (∀ (v : ℚ) (k : Nat), genKeyWith mul t v = some k → 1 ≤ k ∧ k ≤ 65535) ∧
      (Configured t →
        (∀ v : ℚ, (genKey t v).isSome = true ↔
          -32767 * t.resolution ≤ v ∧ v < 32768 * t.resolution) ∧
        (∀ v : ℚ, (genKey t v).isSome = true → |v| < 2 ^ 15 * t.resolution) ∧
        (∀ k : Nat, (∃ v : ℚ, genKey t v = some k) ↔ 1 ≤ k ∧ k ≤ 65535) ∧
        Set.ncard {k : Nat | ∃ v : ℚ, genKey t v = some k} = 65535) := by
  refine ⟨?_, ?_, ?_⟩
  · intro v
    have hlo : (0 < ⌊mul t.resolution_factor v⌋ + 32768) ↔ -32767 ≤ mul t.resolution_factor v := by
      have h1 : (0 < ⌊mul t.resolution_factor v⌋ + 32768) ↔
          (-32767 : Int) ≤ ⌊mul t.resolution_factor v⌋ := by omega
      rw [h1, Int.le_floor]
      norm_num
    have hhi : (⌊mul t.resolution_factor v⌋ + 32768 < 65536) ↔
        mul t.resolution_factor v < 32768 := by
      have h1 : (⌊mul t.resolution_factor v⌋ + 32768 < 65536) ↔
          ⌊mul t.resolution_factor v⌋ < (32768 : Int) := by omega
      rw [h1, Int.floor_lt]
      norm_num
    rw [genKeyWith_eq mul t hm, ← hlo, ← hhi]
    by_cases hc : 0 < ⌊mul t.resolution_factor v⌋ + 32768 ∧
        ⌊mul t.resolution_factor v⌋ + 32768 < 65536
    · rw [if_pos hc]
      simp [hc]
    · rw [if_neg hc]
      simp [hc]
  · intro v k hk
    rw [genKeyWith_eq mul t hm] at hk
    by_cases hc : 0 < ⌊mul t.resolution_factor v⌋ + 32768 ∧
        ⌊mul t.resolution_factor v⌋ + 32768 < 65536
    · rw [if_pos hc] at hk
      have := Option.some.inj hk
      omega
    · rw [if_neg hc] at hk
      cases hk
  · intro h
    refine ⟨genKey_isSome_iff t h hr, ?_, genKey_keys t h hr, ?_⟩
    · intro v hv
      obtain ⟨h1, h2⟩ := (genKey_isSome_iff t h hr v).1 hv
      rw [abs_lt]
      constructor <;> nlinarith
    · have hset : {k : Nat | ∃ v : ℚ, genKey t v = some k} = ↑(Finset.Icc 1 65535) := by
        ext k
        simp only [Set.mem_setOf_eq, Finset.coe_Icc, Set.mem_Icc]
        exact genKey_keys t h hr k
      rw [hset, Set.ncard_coe_Finset]
      simp

theorem genKeyWith_addressable_range_witness :
    (∀ v : ℚ, (genKeyWith doubleMul eleventhTree v).isSome = true ↔
        -32767 ≤ doubleMul eleventhTree.resolution_factor v ∧
          doubleMul eleventhTree.resolution_factor v < 32768) ∧
      (∀ v : ℚ, (genKey (new (1 / 100) : AbstractOcTree Unit) v).isSome = true →
        |v| < 2 ^ 15 * (new (1 / 100) : AbstractOcTree Unit).resolution) ∧
      Set.ncard {k : Nat | ∃ v : ℚ, genKey (new (1 / 100) : AbstractOcTree Unit) v = some k} =
        65535 :=
  ⟨(genKeyWith_addressable_range doubleMul eleventhTree rfl
      (show (0 : ℚ) < elevenHundredths by norm_num [elevenHundredths])).1,
    ((genKeyWith_addressable_range (fun a b => a * b) (new (1 / 100)) rfl
      (show (0 : ℚ) < 1 / 100 by norm_num)).2.2 (configured_new (1 / 100))).2.1,
    ((genKeyWith_addressable_range (fun a b => a * b) (new (1 / 100)) rfl
      (show (0 : ℚ) < 1 / 100 by norm_num)).2.2 (configured_new (1 / 100))).2.2.2⟩

/-- C16 as first stated fails in `double` arithmetic at `r = 0.11`,
`v = -3604.37`: the value satisfies `-32767 * r ≤ v < 32768 * r`, but
`genKey` returns false, because the stored factor `1. / r` is rounded up and
the product rounds to `-32767.000000000004`, whose floor is `-32768`. -/
theorem genKey_rejects_inside_range :
    roundDouble elevenHundredths = elevenHundredths ∧
      roundDouble insideLowerEnd = insideLowerEnd ∧
      (0 : ℚ) < eleventhTree.resolution ∧ eleventhTree.resolution = elevenHundredths ∧
      eleventhTree.resolution_factor = doubleDiv 1 eleventhTree.resolution ∧
      -32767 * eleventhTree.resolution ≤ insideLowerEnd ∧
      insideLowerEnd < 32768 * eleventhTree.resolution ∧
      ⌊doubleMul eleventhTree.resolution_factor insideLowerEnd⌋ = -32768 ∧
      genKeyWith doubleMul eleventhTree insideLowerEnd = none := by
  have hfl : ⌊doubleMul eleventhTree.resolution_factor insideLowerEnd⌋ = -32768 := by
    rw [eleventhTree_product, Int.floor_eq_iff]
    norm_num
  refine ⟨eleventh_double.1, eleventh_double.2, ?_, rfl, rfl, ?_, ?_, hfl, ?_⟩
  · show (0 : ℚ) < elevenHundredths
    norm_num [elevenHundredths]
  · show -32767 * elevenHundredths ≤ insideLowerEnd
    norm_num [elevenHundredths, insideLowerEnd]
  · show insideLowerEnd < 32768 * elevenHundredths
    norm_num [elevenHundredths, insideLowerEnd]
  · rw [genKeyWith_eq doubleMul eleventhTree rfl, hfl]
    rfl

end AbstractOcTree

end octomap
